import Mathlib

/-!
Verification of the time-series dataset layer (`tsdataset` module):
`TimeSeriesDataset` (ragged series concatenated into one temporal array with
`indptr` offsets), its `__getitem__` left padding, `append`, `trim_dataset`,
`update_dataset`/`align`/`from_df`, and `TimeSeriesLoader._collate_fn`.

Cell values are modelled by `Val`: a rational number or the float NaN marker.
None of the verified operations performs arithmetic on cell values (they only
copy cells and write the constants 0 and 1), so this carrier is faithful.
Machine floats, tensor dtypes and `_as_torch_copy` conversions are value-level
identities here.
-/

/-- A cell of the temporal/static arrays: a numeric value or NaN. -/
inductive Val
  | num (q : ℚ)
  | nan
deriving DecidableEq, Repr

/-- One dataframe row: series identifier, timestamp, and the value columns
(in the dataframe's column order, excluding the id and time columns). -/
structure Row where
  id : Nat
  time : Int
  vals : List Val
deriving DecidableEq, Repr

/-- A dataframe: names of the value columns (id and time columns are kept
implicit as the `Row.id`/`Row.time` fields) and the rows. -/
structure DFrame where
  cols : List String
  rows : List Row
deriving DecidableEq, Repr

/-- `TimeSeriesDataset`: the fields assigned by
`TimeSeriesDataset.__init__` / `BaseTimeSeriesDataset.__init__`.
`n_groups`, `max_size` and `min_size` are computed from `indptr` at
construction time and nothing mutates `indptr` afterwards, so they are
modelled as derived functions rather than stored fields. -/
structure TimeSeriesDataset where
  temporal : List (List Val)
  temporal_cols : List String
  indptr : List Nat
  y_idx : Nat
  static : Option (List (List Val))
  static_cols : Option (List String)
  updated : Bool
deriving DecidableEq, Repr

namespace TimeSeriesDataset

/-- `self.n_groups = self.indptr.size - 1`. -/
def nGroups (ds : TimeSeriesDataset) : Nat := ds.indptr.length - 1

/-- `self.indptr[i]` (reads are always in bounds in the verified uses). -/
def indptrAt (ds : TimeSeriesDataset) (i : Nat) : Nat := ds.indptr.getD i 0

/-- `np.diff(indptr)`: the per-series lengths. -/
def sizes (ds : TimeSeriesDataset) : List Nat :=
  List.zipWith (fun b a => b - a) ds.indptr.tail ds.indptr

/-- `sizes.max()` as stored by `__init__` (0 for the empty case, which in
Python would raise at construction time). -/
def max_size (ds : TimeSeriesDataset) : Nat := ds.sizes.foldl max 0

/-- `sizes.min()` as stored by `__init__` (0 for the empty case, which in
Python would raise at construction time). -/
def min_size (ds : TimeSeriesDataset) : Nat :=
  match ds.sizes with
  | [] => 0
  | s :: rest => rest.foldl min s

/-- The rows of series `i`: `self.temporal[self.indptr[i] : self.indptr[i+1], :]`. -/
def series (ds : TimeSeriesDataset) (i : Nat) : List (List Val) :=
  (ds.temporal.drop (ds.indptrAt i)).take (ds.indptrAt (i + 1) - ds.indptrAt i)

/-- The constructor: `TimeSeriesDataset.__init__` followed by
`BaseTimeSeriesDataset.__init__`.  `_as_torch_copy` (dtype conversion plus
clone) is a value-level identity.  The `updated` flag is initialized to
`False` and no method of the class ever reads or sets it. -/
def make (temporal : List (List Val)) (temporal_cols : List String)
    (indptr : List Nat) (y_idx : Nat) (static : Option (List (List Val)))
    (static_cols : Option (List String)) : TimeSeriesDataset :=
  { temporal := temporal
    temporal_cols := temporal_cols
    indptr := indptr
    y_idx := y_idx
    static := static
    static_cols := static_cols
    updated := false }

end TimeSeriesDataset

/-- The indptr invariant (claim C4): `indptr` has `n_groups + 1` entries,
starts at 0, is non-decreasing, ends at the number of temporal rows, and
series `i` consists of rows `indptr[i]` (inclusive) to `indptr[i+1]`
(exclusive) of `temporal`. -/
def IndptrInvariant (ds : TimeSeriesDataset) : Prop :=
  ds.indptr.length = ds.nGroups + 1 ∧
  ds.indptr.head? = some 0 ∧
  List.Chain' (· ≤ ·) ds.indptr ∧
  ds.indptr.getLast? = some ds.temporal.length ∧
  ∀ i < ds.nGroups,
    ds.series i =
      (ds.temporal.drop (ds.indptrAt i)).take (ds.indptrAt (i + 1) - ds.indptrAt i)

instance : DecidablePred IndptrInvariant := fun ds =>
  inferInstanceAs (Decidable
    (ds.indptr.length = ds.nGroups + 1 ∧
     ds.indptr.head? = some 0 ∧
     List.Chain' (· ≤ ·) ds.indptr ∧
     ds.indptr.getLast? = some ds.temporal.length ∧
     ∀ i < ds.nGroups,
       ds.series i =
         (ds.temporal.drop (ds.indptrAt i)).take
           (ds.indptrAt (i + 1) - ds.indptrAt i)))

/-- Offsets of concatenated chunks: `cumsum ls = [0, ls 0, ls 0 + ls 1, ...]`.
This is the shape every `indptr` produced by the module has. -/
def cumsum : List Nat → List Nat
  | [] => [0]
  | x :: xs => 0 :: (cumsum xs).map (· + x)

/-- Slice assignment `m[s : s + rows.length] = rows` on a torch tensor /
numpy array, for in-range writes (`s + rows.length ≤ m.length`).  All writes
performed by `append` and `trim_dataset` are in range whenever the indptr
invariant holds; out-of-range writes would raise in torch and are outside the
verified hypotheses. -/
def setRows (m : List α) (s : Nat) (rows : List α) : List α :=
  m.take s ++ rows ++ m.drop (s + rows.length)

example : cumsum [2, 3] = [0, 2, 5] := by decide
example : setRows [1, 2, 3, 4] 1 [9, 9] = [1, 9, 9, 4] := by decide

/-- `torch.Tensor.permute(1, 0)` on a matrix of the given column count
(entries read with a 0 default; reads are in bounds when all rows have
width `w`). -/
def matTranspose (w : Nat) (m : List (List Val)) : List (List Val) :=
  (List.range w).map (fun c => m.map (fun row => row.getD c (Val.num 0)))

/-- An item returned by `TimeSeriesDataset.__getitem__` (the `dict` built at
the end of the method). -/
structure Item where
  temporal : List (List Val)
  temporal_cols : List String
  static : Option (List Val)
  static_cols : Option (List String)
  y_idx : Nat
deriving DecidableEq, Repr

namespace TimeSeriesDataset

/-- `TimeSeriesDataset.__getitem__` for an `int` index (a non-`int` index
raises `ValueError` and is excluded by the type here).  The source compares
`temporal_size == (ts.shape[1], ts.shape[0])`; `ts.shape[1]` is the column
count of `temporal`, which equals `len(temporal_cols)` in every dataset the
module builds, so the test is the comparison `max_size == len(ts)`.  In the
padding branch, `temporal[:C, -len(ts):] = ts.permute(1, 0)` writes the last
`len(ts)` entries of each of the `C` zero rows; `len(ts) ≥ 1` holds for all
non-empty series (for an empty series Python's `-0:` slice would instead
denote the whole row and the assignment would raise). -/
def getitem (ds : TimeSeriesDataset) (idx : Nat) : Item :=
  let C := ds.temporal_cols.length
  let ts := ds.series idx
  let temporal :=
    if ds.max_size = ts.length then
      matTranspose C ts
    else
      (List.range C).map (fun c =>
        List.replicate (ds.max_size - ts.length) (Val.num 0) ++
          ts.map (fun row => row.getD c (Val.num 0)))
  { temporal := temporal
    temporal_cols := ds.temporal_cols
    static := ds.static.map (fun s => s.getD idx [])
    static_cols := ds.static_cols
    y_idx := ds.y_idx }

/-- The attribute names a `TimeSeriesDataset` instance has: the fields
assigned in `TimeSeriesDataset.__init__` and `BaseTimeSeriesDataset.__init__`.
Note that the temporal array is stored under `temporal`; no `data` attribute
is ever defined. -/
def attrNames : List String :=
  ["temporal", "indptr", "n_groups", "temporal_cols", "static", "static_cols",
   "max_size", "min_size", "y_idx", "updated"]

/-- `hasattr(other, name)` for an `other` that is a `TimeSeriesDataset`. -/
def hasattr (name : String) : Bool := name ∈ attrNames

/-- `TimeSeriesDataset.__eq__` applied to two `TimeSeriesDataset` instances.
If the attribute guard passed, the body would evaluate `self.data`, which
raises `AttributeError` (modelled by the `error` branch). -/
def dunder_eq (_self _other : TimeSeriesDataset) : Except String Bool :=
  if ¬ hasattr "data" ∨ ¬ hasattr "indptr" then
    .ok false
  else
    .error "AttributeError: TimeSeriesDataset object has no attribute data"

/-- `TimeSeriesDataset.append`.  `torch.empty` allocates uninitialized
storage, modelled by empty rows: the fill loop overwrites every row whenever
the indptr invariant holds (proved below), so the initial contents never
reach the result in the verified uses.  The second slice assignment's target
`new_temporal[new_indptr[i] + curr_size : new_indptr[i + 1]]` has exactly the
length of the copied future series under the invariant. -/
def append (self futr_dataset : TimeSeriesDataset) :
    Except String TimeSeriesDataset :=
  if self.indptr.length ≠ futr_dataset.indptr.length then
    .error "Cannot append futr_dataset with different number of groups."
  else
    let len_temporal := self.temporal.length
    let len_futr := futr_dataset.temporal.length
    let init : List (List Val) := List.replicate (len_temporal + len_futr) []
    let new_indptr := List.zipWith (· + ·) self.indptr futr_dataset.indptr
    let new_temporal := (List.range self.nGroups).foldl (fun m i =>
      let curr_size := self.indptrAt (i + 1) - self.indptrAt i
      let m := setRows m (new_indptr.getD i 0)
        ((self.temporal.drop (self.indptrAt i)).take curr_size)
      setRows m (new_indptr.getD i 0 + curr_size)
        ((futr_dataset.temporal.drop (futr_dataset.indptrAt i)).take
          (futr_dataset.indptrAt (i + 1) - futr_dataset.indptrAt i))) init
    .ok (make new_temporal self.temporal_cols new_indptr self.y_idx
      self.static self.static_cols)

/-- `TimeSeriesDataset.trim_dataset`.  `torch.zeros` rows are fully
overwritten by the loop whenever the indptr invariant holds, so the
initialization is modelled by empty rows as in `append`.  The loop threads
`(new_temporal, acum, new_indptr)`. -/
def trim_dataset (dataset : TimeSeriesDataset) (left_trim right_trim : Nat) :
    Except String TimeSeriesDataset :=
  if dataset.min_size ≤ left_trim + right_trim then
    .error "left_trim + right_trim must be lower than the shorter time series"
  else
    let len_temporal := dataset.temporal.length
    let total_trim := (left_trim + right_trim) * dataset.nGroups
    let init : List (List Val) := List.replicate (len_temporal - total_trim) []
    let st := (List.range dataset.nGroups).foldl
      (fun (st : List (List Val) × Nat × List Nat) i =>
        let series_length := dataset.indptrAt (i + 1) - dataset.indptrAt i
        let new_length := series_length - left_trim - right_trim
        let m := setRows st.1 st.2.1
          ((dataset.temporal.drop (dataset.indptrAt i + left_trim)).take
            ((dataset.indptrAt (i + 1) - right_trim) -
              (dataset.indptrAt i + left_trim)))
        (m, st.2.1 + new_length, st.2.2 ++ [st.2.1 + new_length]))
      (init, 0, [0])
    .ok (make st.1 dataset.temporal_cols st.2.2 dataset.y_idx
      dataset.static dataset.static_cols)

end TimeSeriesDataset

namespace TimeSeriesDataset

/-- `BaseTimeSeriesDataset._ensure_available_mask`: when `available_mask` is
not among the column names, append a column of ones to the data and the name
`available_mask` to the columns. -/
def ensure_available_mask (data : List (List Val)) (temporal_cols : List String) :
    List (List Val) × List String :=
  if "available_mask" ∈ temporal_cols then
    (data, temporal_cols)
  else
    (data.map (fun row => row ++ [Val.num 1]), temporal_cols ++ ["available_mask"])

end TimeSeriesDataset

/-- Total order on rows by timestamp, used for the per-series time sort. -/
def timeLe (a b : Row) : Prop := a.time ≤ b.time

instance : DecidableRel timeLe := fun a b => inferInstanceAs (Decidable (a.time ≤ b.time))

/-- The distinct series identifiers in increasing order. -/
def sortedIds (rows : List Row) : List Nat :=
  List.insertionSort (· ≤ ·) (rows.map Row.id).dedup

/-- The per-series row groups: for each identifier in increasing order, its
rows sorted by time (stably). -/
def groupsOf (rows : List Row) : List (List Row) :=
  (sortedIds rows).map (fun g =>
    List.insertionSort timeLe (rows.filter (fun r => r.id = g)))

/-- Modelled from the spec: `utilsforecast.processing.process_df` (an external
library function, not part of this repository's sources).  Per the spec's
dataset/indexing description it "stores multiple ragged time series
concatenated into one array with group boundaries recorded as offsets": the
rows are sorted stably by (id, time), the per-series segments are
concatenated, and the offsets delimiting them are returned as the index
pointer.  The reordering that moves the target into the first data column is
not modelled; the theorems below take dataframes whose first value column is
already the target.  The returned `ids`, `times` and `sort_idxs` outputs are
not needed by any claim and are omitted. -/
def processDf (rows : List Row) : List (List Val) × List Nat :=
  ((groupsOf rows).flatten.map Row.vals,
   cumsum ((groupsOf rows).map List.length))

namespace TimeSeriesDataset

/-- `TimeSeriesDataset.from_df` (with the default `static_df=None`, which is
how every claim uses it; a static frame does not affect `temporal`, `indptr`
or `temporal_cols`).  Only the dataset component of the returned tuple is
modelled.  Note the source passes `data` (not the `astype` copy `temporal`)
to `_ensure_available_mask`; with value-level dtypes the two coincide. -/
def from_df (df : DFrame) (target_col : String) : TimeSeriesDataset :=
  let pr := processDf df.rows
  let temporal_cols := target_col :: df.cols.filter (fun c => c ≠ target_col)
  let em := ensure_available_mask pr.1 temporal_cols
  make em.1 em.2 pr.2 0 none none

end TimeSeriesDataset

/-- Index of a column name (first occurrence). -/
def colIdx (cols : List String) (c : String) : Nat := cols.indexOf c

/-- The value of row `r` in column `c` of a frame with columns `cols`
(reads are in bounds whenever `c ∈ cols` and the row has full width). -/
def rowVal (cols : List String) (r : Row) (c : String) : Val :=
  r.vals.getD (colIdx cols c) Val.nan

/-- `ufp.assign_columns(df, col, scalar)`: overwrite the column when present,
otherwise append it; every row receives the scalar. -/
def assignCol (df : DFrame) (c : String) (v : Val) : DFrame :=
  if c ∈ df.cols then
    { cols := df.cols
      rows := df.rows.map (fun r => { r with vals := r.vals.set (colIdx df.cols c) v }) }
  else
    { cols := df.cols ++ [c]
      rows := df.rows.map (fun r => { r with vals := r.vals ++ [v] }) }

/-- `df[[id_col, time_col] + temporal_cols.tolist()]`: reorder/select the
value columns (id and time are implicit fields of `Row`). -/
def selectCols (df : DFrame) (cs : List String) : DFrame :=
  { cols := cs
    rows := df.rows.map (fun r => { r with vals := cs.map (rowVal df.cols r) }) }

namespace TimeSeriesDataset

/-- `TimeSeriesDataset.align`: for every column of `self.temporal_cols`
missing from `df`, assign NaN; assign the constant 1.0 to the
`available_mask` column (overwriting any values `df` carried there); select
the columns in `temporal_cols` order; build a dataset with `from_df`. -/
def align (ds : TimeSeriesDataset) (df : DFrame) (target_col : String) :
    TimeSeriesDataset :=
  let df := ds.temporal_cols.foldl (fun d c =>
    let d := if c ∈ d.cols then d else assignCol d c Val.nan
    if c = "available_mask" then assignCol d c (Val.num 1) else d) df
  let df := selectCols df ds.temporal_cols
  from_df df target_col

/-- `TimeSeriesDataset.update_dataset`: align the future frame against the
dataset's columns and append it. -/
def update_dataset (dataset : TimeSeriesDataset) (futr_df : DFrame)
    (target_col : String) : Except String TimeSeriesDataset :=
  dataset.append (dataset.align futr_df target_col)

end TimeSeriesDataset

/-- An element of a batch handed to `TimeSeriesLoader._collate_fn`: a tensor,
a mapping (a dataset item), or something else. -/
inductive BatchElem
  | tensor (t : List (List Val))
  | mapping (item : Item)
  | other
deriving DecidableEq, Repr

/-- The dict built by the mapping branch of `_collate_fn`.  Key presence is
modelled by `Option`: the `static`/`static_cols` fields are `some` exactly
when the keys are in the returned dict. -/
structure CollatedBatch where
  temporal : List (List (List Val))
  temporal_cols : List String
  y_idx : Nat
  static : Option (List (List Val))
  static_cols : Option (List String)
deriving DecidableEq, Repr

/-- The two possible successful results of `_collate_fn`. -/
inductive Collated
  | stacked (t : List (List (List Val)))
  | batchDict (b : CollatedBatch)
deriving DecidableEq, Repr

/-- `torch.stack(batch, 0)` along a new first dimension; the `len(batch) == 1`
unsqueeze branch and the worker shared-memory branch produce the same stacked
value. -/
def collateStack (batch : List α) : List α :=
  match batch with
  | [] => []
  | e :: rest => if rest.isEmpty then [e] else e :: rest

/-- `d['temporal']` for a batch element `d`: indexing anything but a mapping
with a string key raises. -/
def temporalOf : BatchElem → Except String (List (List Val))
  | .mapping it => .ok it.temporal
  | _ => .error "TypeError: element is not a mapping"

/-- `d['static']` for a batch element `d`, fed to the recursive collate call:
`torch.stack` raises when an entry is `None`. -/
def staticOf : BatchElem → Except String (List Val)
  | .mapping it =>
    match it.static with
    | some s => .ok s
    | none => .error "TypeError: expected Tensor, got NoneType"
  | _ => .error "TypeError: element is not a mapping"

/-- `TimeSeriesLoader._collate_fn`.  An empty batch raises `IndexError` at
`batch[0]`; a first element that is neither a tensor nor a mapping raises
`TypeError`. -/
def collate_fn (batch : List BatchElem) : Except String Collated :=
  match batch with
  | [] => .error "IndexError: batch is empty"
  | elem :: _ =>
    match elem with
    | .tensor _ => do
      let ts ← batch.mapM (fun e =>
        match e with
        | .tensor t => Except.ok t
        | _ => Except.error "TypeError: expected Tensor")
      .ok (.stacked (collateStack ts))
    | .mapping it =>
      if it.static.isNone then do
        let temps ← batch.mapM temporalOf
        .ok (.batchDict
          { temporal := collateStack temps
            temporal_cols := it.temporal_cols
            y_idx := it.y_idx
            static := none
            static_cols := none })
      else do
        let stats ← batch.mapM staticOf
        let temps ← batch.mapM temporalOf
        .ok (.batchDict
          { temporal := collateStack temps
            temporal_cols := it.temporal_cols
            y_idx := it.y_idx
            static := some (collateStack stats)
            static_cols := it.static_cols })
    | .other => .error "TypeError: Unknown"

/-! ### Basic algebra of `setRows` and `cumsum` -/

theorem getD_map_add (l : List Nat) (a j : Nat) (h : j < l.length) :
    (l.map (· + a)).getD j 0 = l.getD j 0 + a := by
  simp [List.getD_eq_getElem?_getD, List.getElem?_map, List.getElem?_eq_getElem h]

theorem setRows_at_front (A B c : List α) :
    setRows (A ++ B) A.length c = A ++ c ++ B.drop c.length := by
  simp [setRows, List.take_left, List.drop_append, List.append_assoc]

theorem cumsum_ne_nil (l : List Nat) : ∃ u, cumsum l = 0 :: u := by
  cases l with
  | nil => exact ⟨[], rfl⟩
  | cons x xs => exact ⟨(cumsum xs).map (· + x), rfl⟩

theorem cumsum_length (l : List Nat) : (cumsum l).length = l.length + 1 := by
  induction l with
  | nil => rfl
  | cons x xs ih => simp [cumsum, ih]

theorem cumsum_getD (l : List Nat) : ∀ k, k ≤ l.length →
    (cumsum l).getD k 0 = (l.take k).sum := by
  induction l with
  | nil =>
    intro k hk
    have : k = 0 := Nat.le_zero.mp hk
    subst this
    rfl
  | cons x xs ih =>
    intro k hk
    cases k with
    | zero => rfl
    | succ j =>
      have hj : j ≤ xs.length := Nat.succ_le_succ_iff.mp hk
      have hjlt : j < (cumsum xs).length := by
        rw [cumsum_length]
        exact Nat.lt_succ_of_le hj
      calc (cumsum (x :: xs)).getD (j + 1) 0
          = ((cumsum xs).map (· + x)).getD j 0 := by rfl
        _ = (cumsum xs).getD j 0 + x := getD_map_add _ _ _ hjlt
        _ = (xs.take j).sum + x := by rw [ih j hj]
        _ = ((x :: xs).take (j + 1)).sum := by
            simp [List.take_succ_cons, Nat.add_comm]

theorem cumsum_head (l : List Nat) : (cumsum l).head? = some 0 := by
  obtain ⟨u, hu⟩ := cumsum_ne_nil l
  rw [hu]
  rfl

theorem cumsum_getLast (l : List Nat) : (cumsum l).getLast? = some l.sum := by
  have hlen : l.length < (cumsum l).length := by
    rw [cumsum_length]; exact Nat.lt_succ_self _
  have h1 : (cumsum l).getLast? = (cumsum l)[(cumsum l).length - 1]? :=
    List.getLast?_eq_getElem? _
  rw [h1, cumsum_length]
  simp only [Nat.add_sub_cancel]
  rw [List.getElem?_eq_getElem hlen]
  have := cumsum_getD l l.length (Nat.le_refl _)
  rw [List.getD_eq_getElem?_getD, List.getElem?_eq_getElem hlen] at this
  simp only [Option.getD_some] at this
  rw [this, List.take_length]

theorem cumsum_chain (l : List Nat) : List.Chain' (· ≤ ·) (cumsum l) := by
  induction l with
  | nil => simp [cumsum]
  | cons x xs ih =>
    show List.Chain' (· ≤ ·) (0 :: (cumsum xs).map (· + x))
    rw [List.chain'_cons']
    constructor
    · intro b _
      exact Nat.zero_le b
    · rw [List.chain'_map]
      exact ih.imp (fun {a b} h => Nat.add_le_add_right h x)

theorem zipWith_add_map_add (u : List Nat) : ∀ (v : List Nat) (x y : Nat),
    List.zipWith (· + ·) (u.map (· + x)) (v.map (· + y)) =
      (List.zipWith (· + ·) u v).map (· + (x + y)) := by
  induction u with
  | nil => intro v x y; simp
  | cons a u' ih =>
    intro v x y
    cases v with
    | nil => simp
    | cons b v' =>
      simp only [List.map_cons, List.zipWith_cons_cons, ih]
      congr 1
      omega

theorem cumsum_zipAdd (a : List Nat) : ∀ (b : List Nat), a.length = b.length →
    List.zipWith (· + ·) (cumsum a) (cumsum b) = cumsum (List.zipWith (· + ·) a b) := by
  induction a with
  | nil =>
    intro b hb
    have : b = [] := List.eq_nil_of_length_eq_zero hb.symm
    subst this
    rfl
  | cons x xs ih =>
    intro b hb
    cases b with
    | nil => simp at hb
    | cons y ys =>
      have hlen : xs.length = ys.length := Nat.succ_injective hb
      show List.zipWith (· + ·) (0 :: (cumsum xs).map (· + x))
          (0 :: (cumsum ys).map (· + y)) =
        0 :: (cumsum (List.zipWith (· + ·) xs ys)).map (· + (x + y))
      simp only [List.zipWith_cons_cons]
      rw [zipWith_add_map_add, ih ys hlen]

theorem zip_sub_map_add (u : List Nat) : ∀ (v : List Nat) (x : Nat),
    List.zipWith (fun b a => b - a) (u.map (· + x)) (v.map (· + x)) =
      List.zipWith (fun b a => b - a) u v := by
  induction u with
  | nil => intro v x; simp
  | cons a u' ih =>
    intro v x
    cases v with
    | nil => simp
    | cons b v' =>
      simp only [List.map_cons, List.zipWith_cons_cons, ih]
      congr 1
      omega

theorem cumsum_zip_sub (l : List Nat) :
    List.zipWith (fun b a => b - a) (cumsum l).tail (cumsum l) = l := by
  induction l with
  | nil => rfl
  | cons x xs ih =>
    obtain ⟨u, hu⟩ := cumsum_ne_nil xs
    have ih' : List.zipWith (fun b a => b - a) u (0 :: u) = xs := by
      rw [hu] at ih
      exact ih
    show List.zipWith (fun b a => b - a) ((cumsum xs).map (· + x))
        (0 :: (cumsum xs).map (· + x)) = x :: xs
    rw [hu]
    show List.zipWith (fun b a => b - a) ((0 + x) :: u.map (· + x))
        (0 :: (0 + x) :: u.map (· + x)) = x :: xs
    simp only [List.zipWith_cons_cons]
    congr 1
    · omega
    · have hm : (0 + x) :: u.map (· + x) = (0 :: u).map (· + x) := by simp
      rw [hm, zip_sub_map_add, ih']

theorem cumsum_snoc (l : List Nat) (x : Nat) :
    cumsum (l ++ [x]) = cumsum l ++ [l.sum + x] := by
  induction l with
  | nil => rfl
  | cons y ys ih =>
    show 0 :: (cumsum (ys ++ [x])).map (· + y) = _
    rw [ih]
    simp [cumsum, List.sum_cons]
    omega

/-! ### Normal form: temporal = flattened chunks, indptr = cumulative lengths -/

/-- A dataset is in normal form for a chunk list when its temporal array is
the concatenation of the chunks and its indptr the cumulative chunk lengths.
Every dataset built by `from_df`, `append` and `trim_dataset` has this shape. -/
def NF (ds : TimeSeriesDataset) (chunks : List (List (List Val))) : Prop :=
  ds.temporal = chunks.flatten ∧ ds.indptr = cumsum (chunks.map List.length)

theorem NF.nGroups_eq {ds : TimeSeriesDataset} {c : List (List (List Val))}
    (h : NF ds c) : ds.nGroups = c.length := by
  unfold TimeSeriesDataset.nGroups
  rw [h.2, cumsum_length]
  simp

theorem NF.sizes_eq {ds : TimeSeriesDataset} {c : List (List (List Val))}
    (h : NF ds c) : ds.sizes = c.map List.length := by
  unfold TimeSeriesDataset.sizes
  rw [h.2, cumsum_zip_sub]

theorem NF.indptrAt_eq {ds : TimeSeriesDataset} {c : List (List (List Val))}
    (h : NF ds c) (k : Nat) (hk : k ≤ c.length) :
    ds.indptrAt k = ((c.map List.length).take k).sum := by
  unfold TimeSeriesDataset.indptrAt
  rw [h.2, cumsum_getD]
  simpa using hk

theorem NF.invariant {ds : TimeSeriesDataset} {c : List (List (List Val))}
    (h : NF ds c) : IndptrInvariant ds := by
  refine ⟨?_, ?_, ?_, ?_, ?_⟩
  · rw [h.2, cumsum_length, h.nGroups_eq]
    simp
  · rw [h.2]
    exact cumsum_head _
  · rw [h.2]
    exact cumsum_chain _
  · rw [h.2, cumsum_getLast, h.1, List.length_flatten]
  · intro i _
    rfl

theorem sum_take_le (l : List Nat) (i : Nat) : (l.take i).sum ≤ l.sum := by
  conv_rhs => rw [← List.take_append_drop i l]
  rw [List.sum_append]
  omega

theorem flatten_drop_sum (c : List (List α)) : ∀ i,
    c.flatten.drop (((c.map List.length).take i).sum) = (c.drop i).flatten := by
  induction c with
  | nil => intro i; simp
  | cons ch rest ih =>
    intro i
    cases i with
    | zero => simp
    | succ j =>
      show (ch ++ rest.flatten).drop (((ch.length :: rest.map List.length).take (j + 1)).sum) = _
      rw [List.take_succ_cons, List.sum_cons, List.drop_append, ih]
      rfl

theorem getD_of_lt (cs : List (List α)) (i : Nat) (hi : i < cs.length) :
    cs.getD i [] = cs[i] :=
  List.getD_eq_getElem cs [] hi

theorem NF.series_eq {ds : TimeSeriesDataset} {cs : List (List (List Val))}
    (h : NF ds cs) (i : Nat) (hi : i < cs.length) :
    ds.series i = cs.getD i [] := by
  have hlen : i < (cs.map List.length).length := by simpa using hi
  have h1 : ds.indptrAt i = ((cs.map List.length).take i).sum :=
    h.indptrAt_eq i (Nat.le_of_lt hi)
  have h2 : ds.indptrAt (i + 1) = ((cs.map List.length).take (i + 1)).sum :=
    h.indptrAt_eq (i + 1) hi
  have h3 : ((cs.map List.length).take (i + 1)).sum =
      ((cs.map List.length).take i).sum + cs[i].length := by
    rw [List.sum_take_succ _ i hlen, List.getElem_map]
  unfold TimeSeriesDataset.series
  rw [h.1, h1, h2, h3, flatten_drop_sum, List.drop_eq_getElem_cons hi,
    List.flatten_cons, Nat.add_sub_cancel_left, getD_of_lt cs i hi]
  exact List.take_left _ _

theorem flatten_segs (l : List Nat) : ∀ (t : List α), l.sum = t.length →
    ((List.range l.length).map (fun i =>
      (t.drop ((cumsum l).getD i 0)).take
        ((cumsum l).getD (i + 1) 0 - (cumsum l).getD i 0))).flatten = t := by
  induction l with
  | nil =>
    intro t h
    simp only [List.sum_nil] at h
    simp [(List.eq_nil_of_length_eq_zero h.symm)]
  | cons x xs ih =>
    intro t h
    have hx : x ≤ t.length := by
      simp only [List.sum_cons] at h
      omega
    have hdrop : xs.sum = (t.drop x).length := by
      rw [List.length_drop]
      simp only [List.sum_cons] at h
      omega
    show ((List.range (xs.length + 1)).map _).flatten = t
    rw [List.range_succ_eq_map, List.map_cons, List.map_map, List.flatten_cons]
    have h0 : (t.drop ((cumsum (x :: xs)).getD 0 0)).take
        ((cumsum (x :: xs)).getD 1 0 - (cumsum (x :: xs)).getD 0 0) = t.take x := by
      rw [cumsum_getD _ 0 (by simp), cumsum_getD _ 1 (by simp)]
      simp
    rw [h0]
    have hrest : List.map
        ((fun i => (t.drop ((cumsum (x :: xs)).getD i 0)).take
          ((cumsum (x :: xs)).getD (i + 1) 0 - (cumsum (x :: xs)).getD i 0)) ∘ Nat.succ)
        (List.range xs.length) =
        List.map (fun i => ((t.drop x).drop ((cumsum xs).getD i 0)).take
          ((cumsum xs).getD (i + 1) 0 - (cumsum xs).getD i 0)) (List.range xs.length) := by
      apply List.map_congr_left
      intro j hj
      have hjlt : j < xs.length := List.mem_range.mp hj
      have e1 : (cumsum (x :: xs)).getD (j + 1) 0 = x + (cumsum xs).getD j 0 := by
        rw [cumsum_getD (x :: xs) (j + 1) (by simp; omega),
          cumsum_getD xs j (Nat.le_of_lt hjlt)]
        simp [List.take_succ_cons]
      have e2 : (cumsum (x :: xs)).getD (j + 2) 0 = x + (cumsum xs).getD (j + 1) 0 := by
        rw [cumsum_getD (x :: xs) (j + 2) (by simp; omega),
          cumsum_getD xs (j + 1) hjlt]
        simp [List.take_succ_cons]
      simp only [Function.comp_apply, Nat.succ_eq_add_one, e1, e2, List.drop_drop]
      congr 1
      omega
    rw [hrest, ih (t.drop x) hdrop, List.take_append_drop]

theorem seg_length (l : List Nat) (t : List α) (h : l.sum = t.length)
    (i : Nat) (hi : i < l.length) :
    ((t.drop ((cumsum l).getD i 0)).take
      ((cumsum l).getD (i + 1) 0 - (cumsum l).getD i 0)).length = l.getD i 0 := by
  have h1 : (cumsum l).getD i 0 = (l.take i).sum := cumsum_getD _ _ (Nat.le_of_lt hi)
  have h2 : (cumsum l).getD (i + 1) 0 = (l.take (i + 1)).sum := cumsum_getD _ _ hi
  have h3 : (l.take (i + 1)).sum = (l.take i).sum + l[i] := List.sum_take_succ _ _ hi
  have h4 : (l.take (i + 1)).sum ≤ t.length := h ▸ sum_take_le _ _
  have h5 : l.getD i 0 = l[i] := List.getD_eq_getElem l 0 hi
  rw [h1, h2, h3, List.length_take, List.length_drop, h5]
  omega

theorem range_map_getD (l : List Nat) :
    (List.range l.length).map (fun i => l.getD i 0) = l := by
  apply List.ext_getElem
  · simp
  · intro i h1 h2
    rw [List.getElem_map, List.getElem_range]
    exact List.getD_eq_getElem l 0 _

/-! ### Reconstruction: every dataset satisfying the invariant is in normal form -/

theorem chain_ptr_eq_cumsum : ∀ (p : List Nat) (off : Nat),
    List.Chain' (· ≤ ·) (off :: p) →
    (cumsum (List.zipWith (fun b a => b - a) p (off :: p))).map (· + off) =
      off :: p := by
  intro p
  induction p with
  | nil =>
    intro off _
    simp [cumsum]
  | cons q p' ih =>
    intro off hch
    have hoffq : off ≤ q := (List.chain'_cons.mp hch).1
    have hch' : List.Chain' (· ≤ ·) (q :: p') := (List.chain'_cons.mp hch).2
    show (0 :: (cumsum (List.zipWith (fun b a => b - a) p' (q :: p'))).map
        (· + (q - off))).map (· + off) = off :: q :: p'
    rw [List.map_cons, List.map_map]
    have hfun : ((· + off) ∘ (· + (q - off)) : Nat → Nat) = (· + q) := by
      funext z
      simp only [Function.comp_apply]
      omega
    rw [hfun, ih q hch']
    simp

theorem invariant_indptr_eq {ds : TimeSeriesDataset} (h : IndptrInvariant ds) :
    ds.indptr = cumsum ds.sizes := by
  obtain ⟨hlen, hhead, hchain, hlast, _⟩ := h
  cases hptr : ds.indptr with
  | nil =>
    rw [hptr] at hhead
    simp at hhead
  | cons a rest =>
    have ha : a = 0 := by
      rw [hptr] at hhead
      simpa using hhead
    subst ha
    have hch : List.Chain' (· ≤ ·) (0 :: rest) := hptr ▸ hchain
    have hkey := chain_ptr_eq_cumsum rest 0 hch
    have hm : ∀ (L : List Nat), L.map (· + 0) = L := by
      intro L
      simp
    rw [hm] at hkey
    unfold TimeSeriesDataset.sizes
    rw [hptr]
    exact hkey.symm

/-- The per-series chunks of a dataset. -/
def chunksOf (ds : TimeSeriesDataset) : List (List (List Val)) :=
  (List.range ds.nGroups).map ds.series

theorem invariant_nf {ds : TimeSeriesDataset} (h : IndptrInvariant ds) :
    NF ds (chunksOf ds) := by
  have hip : ds.indptr = cumsum ds.sizes := invariant_indptr_eq h
  have hsum : ds.sizes.sum = ds.temporal.length := by
    have h1 : ds.indptr.getLast? = some ds.temporal.length := h.2.2.2.1
    rw [hip, cumsum_getLast] at h1
    exact Option.some_injective _ h1
  have hn : ds.nGroups = ds.sizes.length := by
    unfold TimeSeriesDataset.nGroups
    rw [hip, cumsum_length]
    simp
  have hform : chunksOf ds = (List.range ds.sizes.length).map (fun i =>
      (ds.temporal.drop ((cumsum ds.sizes).getD i 0)).take
        ((cumsum ds.sizes).getD (i + 1) 0 - (cumsum ds.sizes).getD i 0)) := by
    unfold chunksOf
    rw [hn]
    apply List.map_congr_left
    intro i _
    unfold TimeSeriesDataset.series TimeSeriesDataset.indptrAt
    rw [hip]
  constructor
  · rw [hform, flatten_segs ds.sizes ds.temporal hsum]
  · rw [hip, hform, List.map_map]
    congr 1
    have : List.map (List.length ∘ (fun i =>
        (ds.temporal.drop ((cumsum ds.sizes).getD i 0)).take
          ((cumsum ds.sizes).getD (i + 1) 0 - (cumsum ds.sizes).getD i 0)))
        (List.range ds.sizes.length) =
        List.map (fun i => ds.sizes.getD i 0) (List.range ds.sizes.length) := by
      apply List.map_congr_left
      intro i hi
      exact seg_length ds.sizes ds.temporal hsum i (List.mem_range.mp hi)
    rw [this, range_map_getD]

/-! ### min_size / max_size via the fold -/

theorem lt_foldl_min (xs : List Nat) : ∀ (a m : Nat),
    m < xs.foldl min a ↔ m < a ∧ ∀ x ∈ xs, m < x := by
  induction xs with
  | nil =>
    intro a m
    simp
  | cons x xs' ih =>
    intro a m
    rw [List.foldl_cons, ih (min a x) m]
    constructor
    · rintro ⟨h1, h3⟩
      rw [Nat.lt_min] at h1
      refine ⟨h1.1, ?_⟩
      intro y hy
      rcases List.mem_cons.mp hy with rfl | hy
      · exact h1.2
      · exact h3 y hy
    · rintro ⟨h1, h2⟩
      refine ⟨Nat.lt_min.mpr ⟨h1, h2 x (List.mem_cons_self x xs')⟩, ?_⟩
      intro y hy
      exact h2 y (List.mem_cons_of_mem x hy)

theorem init_le_foldl_max (xs : List Nat) : ∀ a, a ≤ xs.foldl max a := by
  induction xs with
  | nil => intro a; exact Nat.le_refl a
  | cons x xs' ih =>
    intro a
    rw [List.foldl_cons]
    exact Nat.le_trans (Nat.le_max_left a x) (ih (max a x))

theorem le_foldl_max (xs : List Nat) : ∀ (a x : Nat), x ∈ xs → x ≤ xs.foldl max a := by
  induction xs with
  | nil =>
    intro a x hx
    simp at hx
  | cons y ys ih =>
    intro a x hx
    rw [List.foldl_cons]
    rcases List.mem_cons.mp hx with rfl | hx
    · exact Nat.le_trans (Nat.le_max_right a x) (init_le_foldl_max ys (max a x))
    · exact ih (max a y) x hx

theorem min_size_iff (ds : TimeSeriesDataset) (hne : ds.sizes ≠ []) (m : Nat) :
    m < ds.min_size ↔ ∀ s ∈ ds.sizes, m < s := by
  unfold TimeSeriesDataset.min_size
  cases hs : ds.sizes with
  | nil => exact absurd hs hne
  | cons s rest =>
    rw [lt_foldl_min rest s m]
    constructor
    · rintro ⟨h1, h2⟩
      intro y hy
      rcases List.mem_cons.mp hy with rfl | hy
      · exact h1
      · exact h2 y hy
    · intro hall
      exact ⟨hall s (List.mem_cons_self s rest),
        fun y hy => hall y (List.mem_cons_of_mem s hy)⟩

theorem size_le_max_size (ds : TimeSeriesDataset) :
    ∀ s ∈ ds.sizes, s ≤ ds.max_size :=
  fun s hs => le_foldl_max ds.sizes 0 s hs

/-! ### Characterization of `append` -/

theorem map_length_zipWith_append (c1 : List (List α)) : ∀ (c2 : List (List α)),
    (List.zipWith (· ++ ·) c1 c2).map List.length =
      List.zipWith (· + ·) (c1.map List.length) (c2.map List.length) := by
  induction c1 with
  | nil => intro c2; simp
  | cons x xs ih =>
    intro c2
    cases c2 with
    | nil => simp
    | cons y ys => simp [ih]

theorem sum_zipWith_add (a : List Nat) : ∀ (b : List Nat), a.length = b.length →
    (List.zipWith (· + ·) a b).sum = a.sum + b.sum := by
  induction a with
  | nil =>
    intro b hb
    have : b = [] := List.eq_nil_of_length_eq_zero hb.symm
    subst this
    rfl
  | cons x xs ih =>
    intro b hb
    cases b with
    | nil => simp at hb
    | cons y ys =>
      have hlen : xs.length = ys.length := Nat.succ_injective hb
      simp only [List.zipWith_cons_cons, List.sum_cons, ih ys hlen]
      omega


theorem flatten_take_succ (cs : List (List α)) (k : Nat) (hk : k < cs.length) :
    (cs.take (k + 1)).flatten = (cs.take k).flatten ++ cs.getD k [] := by
  rw [List.take_succ, List.getElem?_eq_getElem hk, Option.toList_some,
    List.flatten_append, List.flatten_cons, List.flatten_nil, List.append_nil,
    getD_of_lt cs k hk]

theorem getD_zipWith_append (c1 : List (List α)) : ∀ (c2 : List (List α)) (k : Nat),
    k < c1.length → k < c2.length →
    (List.zipWith (· ++ ·) c1 c2).getD k [] = c1.getD k [] ++ c2.getD k [] := by
  induction c1 with
  | nil =>
    intro c2 k h1 _
    simp at h1
  | cons x xs ih =>
    intro c2 k h1 h2
    cases c2 with
    | nil => simp at h2
    | cons y ys =>
      cases k with
      | zero => rfl
      | succ j =>
        simp only [List.zipWith_cons_cons, List.getD_cons_succ]
        exact ih ys j (by simpa using h1) (by simpa using h2)

theorem NF.size_at {ds : TimeSeriesDataset} {cs : List (List (List Val))}
    (h : NF ds cs) (k : Nat) (hk : k < cs.length) :
    ds.indptrAt (k + 1) - ds.indptrAt k = (cs.getD k []).length := by
  rw [h.indptrAt_eq (k + 1) hk, h.indptrAt_eq k (Nat.le_of_lt hk),
    List.sum_take_succ _ k (by simpa using hk), List.getElem_map,
    getD_of_lt cs k hk]
  omega

theorem append_fill (self futr : TimeSeriesDataset)
    (c1 c2 : List (List (List Val)))
    (h1 : NF self c1) (h2 : NF futr c2) (hlen : c1.length = c2.length) :
    ∀ (k : Nat), k ≤ c1.length → ∀ (init : List (List Val)),
    (List.range k).foldl (fun m i =>
      setRows
        (setRows m ((List.zipWith (· + ·) self.indptr futr.indptr).getD i 0)
          ((self.temporal.drop (self.indptrAt i)).take
            (self.indptrAt (i + 1) - self.indptrAt i)))
        ((List.zipWith (· + ·) self.indptr futr.indptr).getD i 0 +
          (self.indptrAt (i + 1) - self.indptrAt i))
        ((futr.temporal.drop (futr.indptrAt i)).take
          (futr.indptrAt (i + 1) - futr.indptrAt i))) init =
      ((List.zipWith (· ++ ·) c1 c2).take k).flatten ++
        init.drop ((((List.zipWith (· ++ ·) c1 c2).take k).map List.length).sum) := by
  have hptr : List.zipWith (· + ·) self.indptr futr.indptr =
      cumsum ((List.zipWith (· ++ ·) c1 c2).map List.length) := by
    rw [h1.2, h2.2, cumsum_zipAdd _ _ (by simp [hlen]), map_length_zipWith_append]
  have hcomb : (List.zipWith (· ++ ·) c1 c2).length = c1.length := by
    rw [List.length_zipWith, hlen, Nat.min_self]
  intro k
  induction k with
  | zero => intro _ init; simp
  | succ k ih =>
    intro hk init
    have hklt : k < c1.length := hk
    have hkc : k < (List.zipWith (· ++ ·) c1 c2).length := by omega
    have hkc2 : k < c2.length := by omega
    rw [List.range_succ, List.foldl_append, ih (Nat.le_of_lt hklt)]
    set comb := List.zipWith (· ++ ·) c1 c2 with hcombdef
    have hgetk : comb.getD k [] = c1.getD k [] ++ c2.getD k [] := by
      rw [hcombdef]
      exact getD_zipWith_append c1 c2 k hklt hkc2
    have hP : (List.zipWith (· + ·) self.indptr futr.indptr).getD k 0 =
        ((comb.take k).map List.length).sum := by
      rw [hptr, cumsum_getD _ k (by simpa [hcomb] using Nat.le_of_lt hklt),
        List.map_take]
    have hA : ((comb.take k).flatten).length = ((comb.take k).map List.length).sum := by
      rw [List.length_flatten]
    have hs : (self.temporal.drop (self.indptrAt k)).take
        (self.indptrAt (k + 1) - self.indptrAt k) = c1.getD k [] :=
      h1.series_eq k hklt
    have hf : (futr.temporal.drop (futr.indptrAt k)).take
        (futr.indptrAt (k + 1) - futr.indptrAt k) = c2.getD k [] :=
      h2.series_eq k hkc2
    have hcs : self.indptrAt (k + 1) - self.indptrAt k = (c1.getD k []).length :=
      h1.size_at k hklt
    simp only [List.foldl_cons, List.foldl_nil]
    rw [hs, hf, hcs]
    have e1 : setRows ((comb.take k).flatten ++
          init.drop (((comb.take k).map List.length).sum))
        ((List.zipWith (· + ·) self.indptr futr.indptr).getD k 0)
        (c1.getD k []) =
        (comb.take k).flatten ++ c1.getD k [] ++
          (init.drop (((comb.take k).map List.length).sum)).drop
            (c1.getD k []).length := by
      rw [hP, ← hA]
      exact setRows_at_front _ _ _
    rw [e1]
    have hpos : (List.zipWith (· + ·) self.indptr futr.indptr).getD k 0 +
        (c1.getD k []).length = ((comb.take k).flatten ++ c1.getD k []).length := by
      rw [List.length_append, hA, hP]
    rw [hpos, setRows_at_front]
    have hsum : ((comb.take (k + 1)).map List.length).sum =
        ((comb.take k).map List.length).sum +
          ((c1.getD k []).length + (c2.getD k []).length) := by
      rw [← List.length_flatten, flatten_take_succ comb k hkc, List.length_append,
        List.length_flatten, hgetk, List.length_append]
    rw [flatten_take_succ comb k hkc, hgetk, hsum]
    simp only [List.drop_drop, List.append_assoc, Nat.add_assoc]

theorem append_nf (self futr : TimeSeriesDataset)
    (c1 c2 : List (List (List Val)))
    (h1 : NF self c1) (h2 : NF futr c2) (hlen : c1.length = c2.length) :
    self.append futr = Except.ok (TimeSeriesDataset.make
      ((List.zipWith (· ++ ·) c1 c2).flatten) self.temporal_cols
      (cumsum ((List.zipWith (· ++ ·) c1 c2).map List.length)) self.y_idx
      self.static self.static_cols) := by
  have hcomb : (List.zipWith (· ++ ·) c1 c2).length = c1.length := by
    rw [List.length_zipWith, hlen, Nat.min_self]
  have hg : ¬ (self.indptr.length ≠ futr.indptr.length) := by
    rw [h1.2, h2.2, cumsum_length, cumsum_length]
    simp [hlen]
  have hptr : List.zipWith (· + ·) self.indptr futr.indptr =
      cumsum ((List.zipWith (· ++ ·) c1 c2).map List.length) := by
    rw [h1.2, h2.2, cumsum_zipAdd _ _ (by simp [hlen]), map_length_zipWith_append]
  have hsumall : ((List.zipWith (· ++ ·) c1 c2).map List.length).sum =
      self.temporal.length + futr.temporal.length := by
    rw [map_length_zipWith_append, sum_zipWith_add _ _ (by simp [hlen]),
      h1.1, h2.1, List.length_flatten, List.length_flatten]
  simp only [TimeSeriesDataset.append, if_neg hg]
  rw [h1.nGroups_eq]
  rw [append_fill self futr c1 c2 h1 h2 hlen c1.length (Nat.le_refl _)
    (List.replicate (self.temporal.length + futr.temporal.length) [])]
  rw [← hcomb, List.take_length, hsumall]
  have hdrop : (List.replicate (self.temporal.length + futr.temporal.length)
      ([] : List Val)).drop (self.temporal.length + futr.temporal.length) = [] := by
    apply List.drop_eq_nil_of_le
    simp
  rw [hdrop, List.append_nil, hptr]

theorem append_err (self futr : TimeSeriesDataset)
    (h : self.indptr.length ≠ futr.indptr.length) :
    self.append futr =
      Except.error "Cannot append futr_dataset with different number of groups." := by
  unfold TimeSeriesDataset.append
  rw [if_pos h]

/-! ### Characterization of `trim_dataset` -/

/-- The per-series chunks after trimming `l` leading and `r` trailing rows. -/
def trimChunks (cs : List (List (List Val))) (l r : Nat) : List (List (List Val)) :=
  cs.map (fun ch => (ch.drop l).take (ch.length - l - r))

theorem getD_map_of_lt {α β : Type} (f : α → β) (L : List α) (k : Nat)
    (hk : k < L.length) (d : β) (d' : α) : (L.map f).getD k d = f (L.getD k d') := by
  rw [List.getD_eq_getElem _ _ (by simpa using hk), List.getElem_map,
    List.getD_eq_getElem _ _ hk]

theorem length_trim_chunk (ch : List (List Val)) (l r : Nat) (hlt : l + r < ch.length) :
    ((ch.drop l).take (ch.length - l - r)).length = ch.length - l - r := by
  rw [List.length_take, List.length_drop]
  omega

theorem sum_trim_lengths (l r : Nat) : ∀ (cs : List (List (List Val))),
    (∀ ch ∈ cs, l + r < ch.length) →
    ((trimChunks cs l r).map List.length).sum + (l + r) * cs.length =
      (cs.map List.length).sum := by
  intro cs
  induction cs with
  | nil => intro _; simp [trimChunks]
  | cons ch rest ih =>
    intro hall
    have hch : l + r < ch.length := hall ch (List.mem_cons_self ch rest)
    have hrest := ih (fun x hx => hall x (List.mem_cons_of_mem ch hx))
    simp only [trimChunks, List.map_cons, List.sum_cons, List.length_cons] at *
    rw [length_trim_chunk ch l r hch, Nat.mul_succ]
    omega

theorem trim_fill (ds : TimeSeriesDataset) (cs : List (List (List Val))) (l r : Nat)
    (h : NF ds cs) (hall : ∀ ch ∈ cs, l + r < ch.length) :
    ∀ (k : Nat), k ≤ cs.length → ∀ (init : List (List Val)),
    (List.range k).foldl (fun (st : List (List Val) × Nat × List Nat) i =>
      (setRows st.1 st.2.1 ((ds.temporal.drop (ds.indptrAt i + l)).take
          ((ds.indptrAt (i + 1) - r) - (ds.indptrAt i + l))),
       st.2.1 + (ds.indptrAt (i + 1) - ds.indptrAt i - l - r),
       st.2.2 ++ [st.2.1 + (ds.indptrAt (i + 1) - ds.indptrAt i - l - r)]))
      (init, 0, [0]) =
      (((trimChunks cs l r).take k).flatten ++
         init.drop ((((trimChunks cs l r).take k).map List.length).sum),
       (((trimChunks cs l r).take k).map List.length).sum,
       cumsum (((trimChunks cs l r).take k).map List.length)) := by
  intro k
  induction k with
  | zero =>
    intro _ init
    simp [cumsum]
  | succ k ih =>
    intro hk init
    have hklt : k < cs.length := hk
    have hktr : k < (trimChunks cs l r).length := by
      simpa [trimChunks] using hklt
    have hmem : cs.getD k [] ∈ cs := by
      rw [getD_of_lt cs k hklt]
      exact List.getElem_mem hklt
    have hch : l + r < (cs.getD k []).length := hall _ hmem
    rw [List.range_succ, List.foldl_append, ih (Nat.le_of_lt hklt)]
    simp only [List.foldl_cons, List.foldl_nil]
    have hpos : ds.indptrAt k = ((cs.map List.length).take k).sum :=
      h.indptrAt_eq k (Nat.le_of_lt hklt)
    have hnext : ds.indptrAt (k + 1) = ((cs.map List.length).take k).sum +
        (cs.getD k []).length := by
      rw [h.indptrAt_eq (k + 1) hklt,
        List.sum_take_succ _ k (by simpa using hklt), List.getElem_map,
        getD_of_lt cs k hklt]
    have htrk : (trimChunks cs l r).getD k [] =
        ((cs.getD k []).drop l).take ((cs.getD k []).length - l - r) :=
      getD_map_of_lt _ cs k hklt [] []
    have hnl : ds.indptrAt (k + 1) - ds.indptrAt k - l - r =
        ((trimChunks cs l r).getD k []).length := by
      rw [htrk, length_trim_chunk _ l r hch, hpos, hnext]
      omega
    have hslice : (ds.temporal.drop (ds.indptrAt k + l)).take
        ((ds.indptrAt (k + 1) - r) - (ds.indptrAt k + l)) =
        (trimChunks cs l r).getD k [] := by
      have hd1 : ds.temporal.drop (ds.indptrAt k + l) =
          (cs.getD k []).drop l ++ (cs.drop (k + 1)).flatten := by
        rw [h.1, hpos, ← List.drop_drop, flatten_drop_sum,
          List.drop_eq_getElem_cons hklt, List.flatten_cons,
          ← getD_of_lt cs k hklt,
          List.drop_append_of_le_length (by omega)]
      have hcount : (ds.indptrAt (k + 1) - r) - (ds.indptrAt k + l) =
          (cs.getD k []).length - l - r := by
        rw [hpos, hnext]
        omega
      rw [hd1, hcount, htrk,
        List.take_append_of_le_length (by rw [List.length_drop]; omega)]
    rw [hslice]
    have hsum_succ : (((trimChunks cs l r).take (k + 1)).map List.length).sum =
        (((trimChunks cs l r).take k).map List.length).sum +
          ((trimChunks cs l r).getD k []).length := by
      rw [← List.length_flatten, flatten_take_succ _ k hktr, List.length_append,
        List.length_flatten]
    have hmap_succ : ((trimChunks cs l r).take (k + 1)).map List.length =
        ((trimChunks cs l r).take k).map List.length ++
          [((trimChunks cs l r).getD k []).length] := by
      rw [List.take_succ, List.getElem?_eq_getElem hktr, Option.toList_some,
        List.map_append, ← getD_of_lt _ k hktr]
      rfl
    refine Prod.ext ?_ (Prod.ext ?_ ?_)
    · show setRows (((trimChunks cs l r).take k).flatten ++
          init.drop ((((trimChunks cs l r).take k).map List.length).sum))
          ((((trimChunks cs l r).take k).map List.length).sum)
          ((trimChunks cs l r).getD k []) = _
      have hA : (((trimChunks cs l r).take k).flatten).length =
          (((trimChunks cs l r).take k).map List.length).sum :=
        List.length_flatten _
      rw [← hA, setRows_at_front]
      show _ = (((trimChunks cs l r).take (k + 1)).flatten ++
        init.drop ((((trimChunks cs l r).take (k + 1)).map List.length).sum))
      rw [flatten_take_succ _ k hktr, hsum_succ, hA, List.drop_drop,
        List.append_assoc]
    · show (((trimChunks cs l r).take k).map List.length).sum +
          (ds.indptrAt (k + 1) - ds.indptrAt k - l - r) = _
      rw [hnl, hsum_succ]
    · show cumsum (((trimChunks cs l r).take k).map List.length) ++
          [(((trimChunks cs l r).take k).map List.length).sum +
            (ds.indptrAt (k + 1) - ds.indptrAt k - l - r)] = _
      rw [hnl, hmap_succ, cumsum_snoc]

theorem trim_guard (ds : TimeSeriesDataset) (cs : List (List (List Val))) (l r : Nat)
    (h : NF ds cs) (hne : cs ≠ []) (hall : ∀ ch ∈ cs, l + r < ch.length) :
    ¬ (ds.min_size ≤ l + r) := by
  rw [Nat.not_le]
  rw [min_size_iff ds (by rw [h.sizes_eq]; simpa using hne)]
  intro s hs
  rw [h.sizes_eq] at hs
  obtain ⟨ch, hch, rfl⟩ := List.mem_map.mp hs
  exact hall ch hch

theorem trim_nf (ds : TimeSeriesDataset) (cs : List (List (List Val))) (l r : Nat)
    (h : NF ds cs) (hne : cs ≠ []) (hall : ∀ ch ∈ cs, l + r < ch.length) :
    ds.trim_dataset l r = Except.ok (TimeSeriesDataset.make
      ((trimChunks cs l r).flatten) ds.temporal_cols
      (cumsum ((trimChunks cs l r).map List.length)) ds.y_idx
      ds.static ds.static_cols) := by
  have hlen : (trimChunks cs l r).length = cs.length := by
    simp [trimChunks]
  have hT : ds.temporal.length = (cs.map List.length).sum := by
    rw [h.1, List.length_flatten]
  have hsum : ((trimChunks cs l r).map List.length).sum =
      ds.temporal.length - (l + r) * cs.length := by
    have := sum_trim_lengths l r cs hall
    omega
  simp only [TimeSeriesDataset.trim_dataset, if_neg (trim_guard ds cs l r h hne hall)]
  rw [h.nGroups_eq]
  rw [trim_fill ds cs l r h hall cs.length (Nat.le_refl _)
    (List.replicate (ds.temporal.length - (l + r) * cs.length) [])]
  rw [← hlen, List.take_length, hlen]
  have hdrop : (List.replicate (ds.temporal.length - (l + r) * cs.length)
      ([] : List Val)).drop (((trimChunks cs l r).map List.length).sum) = [] := by
    apply List.drop_eq_nil_of_le
    rw [List.length_replicate, hsum]
  dsimp only
  rw [hdrop, List.append_nil]

/-! ### `from_df` normal form -/

/-- The chunks `from_df` produces: per-series time-sorted rows' values, with a
ones column appended when the frame has no `available_mask` column. -/
def fromDfChunks (df : DFrame) (target_col : String) : List (List (List Val)) :=
  if "available_mask" ∈ target_col :: df.cols.filter (fun c => c ≠ target_col) then
    (groupsOf df.rows).map (fun g => g.map Row.vals)
  else
    (groupsOf df.rows).map (fun g => g.map (fun row => row.vals ++ [Val.num 1]))

theorem from_df_nf (df : DFrame) (target_col : String) :
    NF (TimeSeriesDataset.from_df df target_col) (fromDfChunks df target_col) := by
  by_cases hmask : "available_mask" ∈
      target_col :: df.cols.filter (fun c => c ≠ target_col)
  · constructor
    · show (TimeSeriesDataset.from_df df target_col).temporal = _
      simp only [TimeSeriesDataset.from_df, TimeSeriesDataset.ensure_available_mask,
        TimeSeriesDataset.make, processDf, fromDfChunks, if_pos hmask]
      rw [List.map_flatten]
    · show (TimeSeriesDataset.from_df df target_col).indptr = _
      simp only [TimeSeriesDataset.from_df, TimeSeriesDataset.ensure_available_mask,
        TimeSeriesDataset.make, processDf, fromDfChunks, if_pos hmask]
      congr 1
      rw [List.map_map]
      apply List.map_congr_left
      intro g _
      simp
  · constructor
    · show (TimeSeriesDataset.from_df df target_col).temporal = _
      simp only [TimeSeriesDataset.from_df, TimeSeriesDataset.ensure_available_mask,
        TimeSeriesDataset.make, processDf, fromDfChunks, if_neg hmask]
      rw [List.map_map, List.map_flatten]
      rfl
    · show (TimeSeriesDataset.from_df df target_col).indptr = _
      simp only [TimeSeriesDataset.from_df, TimeSeriesDataset.ensure_available_mask,
        TimeSeriesDataset.make, processDf, fromDfChunks, if_neg hmask]
      congr 1
      rw [List.map_map]
      apply List.map_congr_left
      intro g _
      simp

theorem from_df_cols_no_mask (df : DFrame) (target_col : String)
    (h : "available_mask" ∉ target_col :: df.cols.filter (fun c => c ≠ target_col)) :
    (TimeSeriesDataset.from_df df target_col).temporal_cols =
      (target_col :: df.cols.filter (fun c => c ≠ target_col)) ++
        ["available_mask"] := by
  simp only [TimeSeriesDataset.from_df, TimeSeriesDataset.ensure_available_mask,
    TimeSeriesDataset.make, if_neg h]

theorem filter_ne_of_nodup (target : String) (rest : List String)
    (hnodup : (target :: rest).Nodup) :
    (target :: rest).filter (fun c => c ≠ target) = rest := by
  have h1 : target ∉ rest := (List.nodup_cons.mp hnodup).1
  rw [List.filter_cons_of_neg (by simp)]
  apply List.filter_eq_self.mpr
  intro c hc
  simp only [ne_eq, decide_eq_true_eq]
  intro hct
  subst hct
  exact h1 hc

/-! ### Stable sort splitting -/

theorem orderedInsert_append_of_le (r : α → α → Prop) [DecidableRel r] (a : α) :
    ∀ (xs ys : List α), (∀ y ∈ ys, r a y) →
      List.orderedInsert r a (xs ++ ys) = List.orderedInsert r a xs ++ ys := by
  intro xs
  induction xs with
  | nil =>
    intro ys hys
    cases ys with
    | nil => rfl
    | cons y ys' =>
      show List.orderedInsert r a (y :: ys') = [a] ++ (y :: ys')
      simp [List.orderedInsert, if_pos (hys y (List.mem_cons_self y ys'))]
  | cons b xs' ih =>
    intro ys hys
    show List.orderedInsert r a (b :: (xs' ++ ys)) =
      List.orderedInsert r a (b :: xs') ++ ys
    by_cases hab : r a b
    · simp [List.orderedInsert, if_pos hab]
    · simp [List.orderedInsert, if_neg hab, ih ys hys]

theorem orderedInsert_append_of_not (r : α → α → Prop) [DecidableRel r] (a : α) :
    ∀ (xs ys : List α), (∀ x ∈ xs, ¬ r a x) →
      List.orderedInsert r a (xs ++ ys) = xs ++ List.orderedInsert r a ys := by
  intro xs
  induction xs with
  | nil => intro ys _; rfl
  | cons b xs' ih =>
    intro ys hxs
    show List.orderedInsert r a (b :: (xs' ++ ys)) =
      (b :: xs') ++ List.orderedInsert r a ys
    have hb : ¬ r a b := hxs b (List.mem_cons_self b xs')
    simp [List.orderedInsert, if_neg hb,
      ih ys (fun x hx => hxs x (List.mem_cons_of_mem b hx))]

theorem insertionSort_filter_split (t : Int) : ∀ (l : List Row),
    List.insertionSort timeLe l =
      List.insertionSort timeLe (l.filter (fun x => x.time ≤ t)) ++
        List.insertionSort timeLe (l.filter (fun x => ¬ x.time ≤ t)) := by
  intro l
  induction l with
  | nil => rfl
  | cons a l' ih =>
    show List.orderedInsert timeLe a (List.insertionSort timeLe l') = _
    by_cases ha : a.time ≤ t
    · rw [List.filter_cons_of_pos (by simpa using ha),
        List.filter_cons_of_neg (by simpa using ha)]
      show _ = List.orderedInsert timeLe a
        (List.insertionSort timeLe (l'.filter (fun x => decide (x.time ≤ t)))) ++
        List.insertionSort timeLe (l'.filter (fun x => decide ¬ (x.time ≤ t)))
      rw [ih, orderedInsert_append_of_le]
      intro y hy
      have hy2 : y ∈ l'.filter (fun x => decide ¬ (x.time ≤ t)) :=
        (List.perm_insertionSort timeLe _).mem_iff.mp hy
      have hyt := (List.mem_filter.mp hy2).2
      simp only [decide_eq_true_eq] at hyt
      show a.time ≤ y.time
      omega
    · rw [List.filter_cons_of_neg (by simpa using ha),
        List.filter_cons_of_pos (by simpa using ha)]
      show _ = List.insertionSort timeLe (l'.filter (fun x => decide (x.time ≤ t))) ++
        List.orderedInsert timeLe a
          (List.insertionSort timeLe (l'.filter (fun x => decide ¬ (x.time ≤ t))))
      rw [ih, orderedInsert_append_of_not]
      intro y hy
      have hy2 : y ∈ l'.filter (fun x => decide (x.time ≤ t)) :=
        (List.perm_insertionSort timeLe _).mem_iff.mp hy
      have hyt := (List.mem_filter.mp hy2).2
      simp only [decide_eq_true_eq] at hyt
      show ¬ a.time ≤ y.time
      omega

/-! ### Group structure lemmas -/

theorem sortedIds_congr {r1 r2 : List Row}
    (h : (r1.map Row.id).toFinset = (r2.map Row.id).toFinset) :
    sortedIds r1 = sortedIds r2 := by
  unfold sortedIds
  have hp : (r1.map Row.id).dedup.Perm (r2.map Row.id).dedup :=
    List.toFinset_eq_iff_perm_dedup.mp h
  exact List.eq_of_perm_of_sorted
    (((List.perm_insertionSort _ _).trans hp).trans
      (List.perm_insertionSort _ _).symm)
    (List.sorted_insertionSort _ _) (List.sorted_insertionSort _ _)

theorem zipWith_map_same {α β γ : Type} (f : β → β → γ) (g h : α → β) :
    ∀ (l : List α), List.zipWith f (l.map g) (l.map h) =
      l.map (fun x => f (g x) (h x)) := by
  intro l
  induction l with
  | nil => rfl
  | cons a l' ih => simp [ih]

theorem orderedInsert_map_time (f : Row → Row) (hf : ∀ x, (f x).time = x.time)
    (a : Row) : ∀ (l : List Row),
    List.orderedInsert timeLe (f a) (l.map f) =
      (List.orderedInsert timeLe a l).map f := by
  intro l
  induction l with
  | nil => rfl
  | cons b l' ih =>
    show List.orderedInsert timeLe (f a) (f b :: l'.map f) = _
    by_cases hab : timeLe a b
    · have hfab : timeLe (f a) (f b) := by
        show (f a).time ≤ (f b).time
        rw [hf a, hf b]
        exact hab
      simp [List.orderedInsert, if_pos hab, if_pos hfab]
    · have hfab : ¬ timeLe (f a) (f b) := by
        show ¬ (f a).time ≤ (f b).time
        rw [hf a, hf b]
        exact hab
      simp [List.orderedInsert, if_neg hab, if_neg hfab, ih]

theorem insertionSort_map_time (f : Row → Row) (hf : ∀ x, (f x).time = x.time) :
    ∀ (l : List Row),
    List.insertionSort timeLe (l.map f) =
      (List.insertionSort timeLe l).map f := by
  intro l
  induction l with
  | nil => rfl
  | cons a l' ih =>
    show List.orderedInsert timeLe (f a) (List.insertionSort timeLe (l'.map f)) = _
    rw [ih]
    exact orderedInsert_map_time f hf a _

theorem groupsOf_map (f : Row → Row) (hfid : ∀ x, (f x).id = x.id)
    (hft : ∀ x, (f x).time = x.time) (rows : List Row) :
    groupsOf (rows.map f) = (groupsOf rows).map (fun g => g.map f) := by
  unfold groupsOf
  have hids : sortedIds (rows.map f) = sortedIds rows := by
    unfold sortedIds
    have hm : (rows.map f).map Row.id = rows.map Row.id := by
      rw [List.map_map]
      apply List.map_congr_left
      intro x _
      exact hfid x
    rw [hm]
  rw [hids, List.map_map]
  apply List.map_congr_left
  intro g _
  show List.insertionSort timeLe ((rows.map f).filter (fun r => r.id = g)) =
    (List.insertionSort timeLe (rows.filter (fun r => r.id = g))).map f
  rw [List.filter_map]
  have hp : ((fun r => decide (r.id = g)) ∘ f) = fun r => decide (r.id = g) := by
    funext x
    simp [hfid x]
  rw [hp]
  exact insertionSort_map_time f hft _

/-! ### `align` computation -/

theorem indexOf_append_self (cols : List String) (c : String) (h : c ∉ cols) :
    List.indexOf c (cols ++ [c]) = cols.length := by
  induction cols with
  | nil => exact List.indexOf_cons_self c []
  | cons d cols' ih =>
    have hdc : d ≠ c := by
      intro hdc
      exact h (hdc ▸ List.mem_cons_self d cols')
    show List.indexOf c (d :: (cols' ++ [c])) = cols'.length + 1
    rw [List.indexOf_cons_ne _ hdc, ih (fun hc => h (List.mem_cons_of_mem d hc))]

theorem set_append_last (vals : List Val) (x v : Val) :
    (vals ++ [x]).set vals.length v = vals ++ [v] := by
  rw [List.set_append]
  simp

theorem map_indexOf_getD (cols : List String) : ∀ (vals : List Val),
    cols.Nodup → vals.length = cols.length →
    cols.map (fun c => vals.getD (List.indexOf c cols) Val.nan) = vals := by
  induction cols with
  | nil =>
    intro vals _ hlen
    have : vals = [] := List.eq_nil_of_length_eq_zero hlen
    subst this
    rfl
  | cons c cs' ih =>
    intro vals hnodup hlen
    cases vals with
    | nil => simp at hlen
    | cons v vs =>
      have hcn : c ∉ cs' := (List.nodup_cons.mp hnodup).1
      have hn' : cs'.Nodup := (List.nodup_cons.mp hnodup).2
      have hlen' : vs.length = cs'.length := Nat.succ_injective hlen
      show (v :: vs).getD (List.indexOf c (c :: cs')) Val.nan ::
        cs'.map (fun c' => (v :: vs).getD (List.indexOf c' (c :: cs')) Val.nan) =
        v :: vs
      rw [List.indexOf_cons_self]
      congr 1
      have hmap : cs'.map (fun c' => (v :: vs).getD (List.indexOf c' (c :: cs')) Val.nan) =
          cs'.map (fun c' => vs.getD (List.indexOf c' cs') Val.nan) := by
        apply List.map_congr_left
        intro c' hc'
        have hne : c ≠ c' := by
          intro hcc
          exact hcn (hcc ▸ hc')
        rw [List.indexOf_cons_ne _ hne]
        rfl
      rw [hmap, ih vs hn' hlen']

theorem selectCols_self (d : DFrame) (hnodup : d.cols.Nodup)
    (hw : ∀ rr ∈ d.rows, rr.vals.length = d.cols.length) :
    selectCols d d.cols = d := by
  unfold selectCols
  have hrows : d.rows.map (fun rr =>
      { rr with vals := d.cols.map (rowVal d.cols rr) }) = d.rows := by
    have h1 : d.rows.map (fun rr =>
        { rr with vals := d.cols.map (rowVal d.cols rr) }) = d.rows.map id := by
      apply List.map_congr_left
      intro rr hrr
      have : d.cols.map (rowVal d.cols rr) = rr.vals := by
        unfold rowVal colIdx
        exact map_indexOf_getD d.cols rr.vals hnodup (hw rr hrr)
      rw [this]
      exact rfl
    rw [h1, List.map_id]
  rw [hrows]

theorem align_foldl_id : ∀ (L : List String) (d : DFrame),
    (∀ c ∈ L, c ∈ d.cols ∧ c ≠ "available_mask") →
    L.foldl (fun d c =>
      let d := if c ∈ d.cols then d else assignCol d c Val.nan
      if c = "available_mask" then assignCol d c (Val.num 1) else d) d = d := by
  intro L
  induction L with
  | nil => intro d _; rfl
  | cons c L' ih =>
    intro d hall
    have hc := hall c (List.mem_cons_self c L')
    rw [List.foldl_cons]
    have hstep : (let d' := if c ∈ d.cols then d else assignCol d c Val.nan;
        if c = "available_mask" then assignCol d' c (Val.num 1) else d') = d := by
      simp only [if_pos hc.1, if_neg hc.2]
    rw [hstep]
    exact ih d (fun x hx => hall x (List.mem_cons_of_mem c hx))

/-- The frame `df` with a constant-one `available_mask` column appended. -/
def withMaskOne (df : DFrame) : DFrame :=
  { cols := df.cols ++ ["available_mask"]
    rows := df.rows.map (fun rr => { rr with vals := rr.vals ++ [Val.num 1] }) }

theorem mask_step_eq (df : DFrame) (hmask : "available_mask" ∉ df.cols)
    (hw : ∀ rr ∈ df.rows, rr.vals.length = df.cols.length) :
    (if "available_mask" = "available_mask" then
      assignCol (if "available_mask" ∈ df.cols then df
        else assignCol df "available_mask" Val.nan) "available_mask" (Val.num 1)
    else (if "available_mask" ∈ df.cols then df
      else assignCol df "available_mask" Val.nan)) = withMaskOne df := by
  rw [if_pos (rfl : "available_mask" = "available_mask"), if_neg hmask]
  show assignCol (assignCol df "available_mask" Val.nan) "available_mask"
    (Val.num 1) = withMaskOne df
  unfold assignCol
  rw [if_neg hmask]
  dsimp only
  have hmem : "available_mask" ∈ df.cols ++ ["available_mask"] := by simp
  rw [if_pos hmem]
  unfold withMaskOne
  congr 1
  rw [List.map_map]
  apply List.map_congr_left
  intro rr hrr
  have hidx : colIdx (df.cols ++ ["available_mask"]) "available_mask" =
      rr.vals.length := by
    unfold colIdx
    rw [indexOf_append_self df.cols "available_mask" hmask, hw rr hrr]
  dsimp only [Function.comp_apply]
  rw [hidx, set_append_last]

theorem align_eq (ds : TimeSeriesDataset) (df : DFrame) (target_col : String)
    (hcols : ds.temporal_cols = df.cols ++ ["available_mask"])
    (hmask : "available_mask" ∉ df.cols)
    (hnodup : df.cols.Nodup)
    (hw : ∀ rr ∈ df.rows, rr.vals.length = df.cols.length) :
    ds.align df target_col =
      TimeSeriesDataset.from_df (withMaskOne df) target_col := by
  simp only [TimeSeriesDataset.align]
  rw [hcols, List.foldl_append]
  rw [align_foldl_id df.cols df (fun c hc => ⟨hc, fun hcm => hmask (hcm ▸ hc)⟩)]
  rw [List.foldl_cons, List.foldl_nil]
  rw [mask_step_eq df hmask hw]
  have hcolsw : df.cols ++ ["available_mask"] = (withMaskOne df).cols := rfl
  rw [hcolsw, selectCols_self]
  · show (withMaskOne df).cols.Nodup
    unfold withMaskOne
    rw [List.nodup_append]
    refine ⟨hnodup, List.nodup_singleton _, ?_⟩
    intro x hx hx2
    simp only [List.mem_singleton] at hx2
    subst hx2
    exact hmask hx
  · intro rr hrr
    unfold withMaskOne at hrr ⊢
    simp only [List.mem_map] at hrr
    obtain ⟨r0, hr0, rfl⟩ := hrr
    simp [hw r0 hr0]

/-! ### Round trip of incremental updates -/

theorem max_size_eq_of_indptr {a b : TimeSeriesDataset} (h : a.indptr = b.indptr) :
    a.max_size = b.max_size := by
  unfold TimeSeriesDataset.max_size TimeSeriesDataset.sizes
  rw [h]

theorem update_roundtrip (df : DFrame) (t : Int) (target_col : String)
    (rest : List String)
    (hcols : df.cols = target_col :: rest)
    (hnodup : df.cols.Nodup)
    (hmask : "available_mask" ∉ df.cols)
    (hw : ∀ rr ∈ df.rows, rr.vals.length = df.cols.length)
    (hids1 : ((df.rows.filter (fun x => x.time ≤ t)).map Row.id).toFinset =
      (df.rows.map Row.id).toFinset)
    (hids2 : ((df.rows.filter (fun x => ¬ x.time ≤ t)).map Row.id).toFinset =
      (df.rows.map Row.id).toFinset) :
    ∃ d' : TimeSeriesDataset,
      TimeSeriesDataset.update_dataset
        (TimeSeriesDataset.from_df
          { cols := df.cols, rows := df.rows.filter (fun x => x.time ≤ t) }
          target_col)
        { cols := df.cols, rows := df.rows.filter (fun x => ¬ x.time ≤ t) }
        target_col = Except.ok d' ∧
      d'.temporal = (TimeSeriesDataset.from_df df target_col).temporal ∧
      d'.indptr = (TimeSeriesDataset.from_df df target_col).indptr ∧
      d'.max_size = (TimeSeriesDataset.from_df df target_col).max_size := by
  have htarget_mem : target_col ∈ df.cols := by
    rw [hcols]
    exact List.mem_cons_self _ _
  have hmt : "available_mask" ≠ target_col := fun h => hmask (h ▸ htarget_mem)
  have hfilter : df.cols.filter (fun c => c ≠ target_col) = rest := by
    conv_lhs => rw [hcols]
    exact filter_ne_of_nodup target_col rest (hcols ▸ hnodup)
  have htcols : target_col :: df.cols.filter (fun c => c ≠ target_col) = df.cols := by
    rw [hfilter, hcols]
  have hmaskt : "available_mask" ∉
      target_col :: df.cols.filter (fun c => c ≠ target_col) := by
    rw [htcols]
    exact hmask
  -- the two halves, as frames over the same columns
  set rows1 := df.rows.filter (fun x => decide (x.time ≤ t)) with hrows1
  set rows2 := df.rows.filter (fun x => decide (¬ x.time ≤ t)) with hrows2
  -- chunk shapes of the two from_df datasets
  have hckey : ∀ (rs : List Row),
      fromDfChunks { cols := df.cols, rows := rs } target_col =
        (groupsOf rs).map (fun g => g.map (fun row => row.vals ++ [Val.num 1])) := by
    intro rs
    unfold fromDfChunks
    dsimp only
    rw [if_neg hmaskt]
  have hcolskey : ∀ (rs : List Row),
      (TimeSeriesDataset.from_df { cols := df.cols, rows := rs }
        target_col).temporal_cols = df.cols ++ ["available_mask"] := by
    intro rs
    have h := from_df_cols_no_mask { cols := df.cols, rows := rs } target_col hmaskt
    rw [h]
    dsimp only
    rw [htcols]
  -- the aligned second half
  have hfilter2 : (df.cols ++ ["available_mask"]).filter
      (fun c => c ≠ target_col) = rest ++ ["available_mask"] := by
    rw [List.filter_append, hfilter, List.filter_cons_of_pos (by simpa using hmt)]
    rfl
  have hmask2_in : "available_mask" ∈ target_col ::
      (df.cols ++ ["available_mask"]).filter (fun c => c ≠ target_col) := by
    rw [hfilter2]
    simp
  have hc2 : fromDfChunks (withMaskOne { cols := df.cols, rows := rows2 })
      target_col =
      (groupsOf rows2).map (fun g => g.map (fun row => row.vals ++ [Val.num 1])) := by
    unfold fromDfChunks
    dsimp only [withMaskOne]
    rw [if_pos hmask2_in]
    rw [groupsOf_map (fun rr => { rr with vals := rr.vals ++ [Val.num 1] })
      (fun x => rfl) (fun x => rfl) rows2]
    rw [List.map_map]
    apply List.map_congr_left
    intro g _
    rw [Function.comp_apply, List.map_map]
    rfl
  -- group counts agree
  have hids12 : sortedIds rows1 = sortedIds rows2 :=
    sortedIds_congr (hids1.trans hids2.symm)
  have hlen12 : (fromDfChunks { cols := df.cols, rows := rows1 }
      target_col).length =
      (fromDfChunks (withMaskOne { cols := df.cols, rows := rows2 })
        target_col).length := by
    rw [hckey rows1, hc2]
    simp only [List.length_map, groupsOf]
    rw [hids12]
  -- the combined chunks equal the full-frame chunks
  have hzip : List.zipWith (· ++ ·)
      (fromDfChunks { cols := df.cols, rows := rows1 } target_col)
      (fromDfChunks (withMaskOne { cols := df.cols, rows := rows2 }) target_col) =
      fromDfChunks df target_col := by
    rw [hckey rows1, hc2]
    unfold groupsOf
    rw [sortedIds_congr hids1, sortedIds_congr hids2]
    rw [List.map_map, List.map_map, zipWith_map_same]
    have hcF : fromDfChunks df target_col =
        (sortedIds df.rows).map (fun g =>
          (List.insertionSort timeLe (df.rows.filter (fun r => r.id = g))).map
            (fun row => row.vals ++ [Val.num 1])) := by
      unfold fromDfChunks groupsOf
      rw [if_neg hmaskt, List.map_map]
      rfl
    rw [hcF]
    apply List.map_congr_left
    intro g _
    show (List.insertionSort timeLe (rows1.filter (fun r => r.id = g))).map
        (fun row => row.vals ++ [Val.num 1]) ++
      (List.insertionSort timeLe (rows2.filter (fun r => r.id = g))).map
        (fun row => row.vals ++ [Val.num 1]) = _
    have hcomm1 : rows1.filter (fun r => r.id = g) =
        (df.rows.filter (fun r => r.id = g)).filter
          (fun x => decide (x.time ≤ t)) := by
      rw [hrows1]
      exact List.filter_comm _ _ _
    have hcomm2 : rows2.filter (fun r => r.id = g) =
        (df.rows.filter (fun r => r.id = g)).filter
          (fun x => decide (¬ x.time ≤ t)) := by
      rw [hrows2]
      exact List.filter_comm _ _ _
    rw [hcomm1, hcomm2, ← List.map_append,
      ← insertionSort_filter_split t (df.rows.filter (fun r => r.id = g))]
  -- run update_dataset
  have hw2 : ∀ rr ∈ ({ cols := df.cols, rows := rows2 } : DFrame).rows,
      rr.vals.length = ({ cols := df.cols, rows := rows2 } : DFrame).cols.length := by
    intro rr hrr
    exact hw rr (List.mem_of_mem_filter hrr)
  unfold TimeSeriesDataset.update_dataset
  rw [align_eq _ { cols := df.cols, rows := rows2 } target_col
    (hcolskey rows1) hmask hnodup hw2]
  rw [append_nf _ _ _ _
    (from_df_nf { cols := df.cols, rows := rows1 } target_col)
    (from_df_nf (withMaskOne { cols := df.cols, rows := rows2 }) target_col)
    hlen12]
  refine ⟨_, rfl, ?_, ?_, ?_⟩
  · show (List.zipWith (· ++ ·) _ _).flatten = _
    rw [hzip, (from_df_nf df target_col).1]
  · show cumsum ((List.zipWith (· ++ ·) _ _).map List.length) = _
    rw [hzip, (from_df_nf df target_col).2]
  · apply max_size_eq_of_indptr
    show cumsum ((List.zipWith (· ++ ·) _ _).map List.length) = _
    rw [hzip, (from_df_nf df target_col).2]

/-! ### `__getitem__` padding -/

theorem series_length_le_max (ds : TimeSeriesDataset) (idx : Nat)
    (hinv : IndptrInvariant ds) (hidx : idx < ds.nGroups) :
    (ds.series idx).length ≤ ds.max_size := by
  have hnf := invariant_nf hinv
  have hlen : idx < (chunksOf ds).length := by
    unfold chunksOf
    simpa using hidx
  have h1 : ds.series idx = (chunksOf ds).getD idx [] := hnf.series_eq idx hlen
  have h2 : ds.sizes = (chunksOf ds).map List.length := hnf.sizes_eq
  apply size_le_max_size
  rw [h2, h1, getD_of_lt _ idx hlen]
  exact List.mem_map_of_mem List.length (List.getElem_mem hlen)

theorem getD_range_map {β : Type} (f : Nat → β) (n c : Nat) (hc : c < n) (d : β) :
    ((List.range n).map f).getD c d = f c := by
  rw [List.getD_eq_getElem _ _ (by simpa using hc), List.getElem_map,
    List.getElem_range]

theorem getitem_temporal (ds : TimeSeriesDataset) (idx : Nat)
    (hinv : IndptrInvariant ds) (hidx : idx < ds.nGroups) :
    ((ds.getitem idx).temporal).length = ds.temporal_cols.length ∧
    (∀ row ∈ (ds.getitem idx).temporal, row.length = ds.max_size) ∧
    ∀ c < ds.temporal_cols.length,
      ((ds.getitem idx).temporal).getD c [] =
        List.replicate (ds.max_size - (ds.series idx).length) (Val.num 0) ++
          (ds.series idx).map (fun row => row.getD c (Val.num 0)) := by
  have hle := series_length_le_max ds idx hinv hidx
  unfold TimeSeriesDataset.getitem
  by_cases hmax : ds.max_size = (ds.series idx).length
  · simp only [if_pos hmax]
    refine ⟨by simp [matTranspose], ?_, ?_⟩
    · intro row hrow
      unfold matTranspose at hrow
      rw [List.mem_map] at hrow
      obtain ⟨c, _, rfl⟩ := hrow
      rw [List.length_map, hmax]
    · intro c hc
      unfold matTranspose
      rw [getD_range_map _ _ _ hc]
      rw [hmax, Nat.sub_self, List.replicate_zero, List.nil_append]
  · simp only [if_neg hmax]
    refine ⟨by simp, ?_, ?_⟩
    · intro row hrow
      rw [List.mem_map] at hrow
      obtain ⟨c, _, rfl⟩ := hrow
      rw [List.length_append, List.length_replicate, List.length_map]
      omega
    · intro c hc
      rw [getD_range_map _ _ _ hc]

/-! ### `_collate_fn` on a batch of dataset items -/

theorem collateStack_eq (batch : List α) (h : batch ≠ []) :
    collateStack batch = batch := by
  unfold collateStack
  cases batch with
  | nil => exact absurd rfl h
  | cons e rest =>
    cases rest with
    | nil => rfl
    | cons f rest' => rfl

theorem mapM_temporalOf (its : List Item) :
    (its.map BatchElem.mapping).mapM temporalOf =
      Except.ok (its.map Item.temporal) := by
  induction its with
  | nil => rfl
  | cons it rest ih =>
    rw [List.map_cons, List.mapM_cons]
    show (temporalOf (BatchElem.mapping it)).bind _ = _
    rw [show temporalOf (BatchElem.mapping it) = Except.ok it.temporal from rfl]
    show (rest.map BatchElem.mapping).mapM temporalOf >>= _ = _
    rw [ih]
    rfl

theorem mapM_staticOf (its : List Item) (sts : List (List Val))
    (h : its.map Item.static = sts.map some) :
    (its.map BatchElem.mapping).mapM staticOf = Except.ok sts := by
  induction its generalizing sts with
  | nil =>
    cases sts with
    | nil => rfl
    | cons s ss => simp at h
  | cons it rest ih =>
    cases sts with
    | nil => simp at h
    | cons s ss =>
      simp only [List.map_cons, List.cons.injEq] at h
      rw [List.map_cons, List.mapM_cons]
      show (staticOf (BatchElem.mapping it)).bind _ = _
      rw [show staticOf (BatchElem.mapping it) = Except.ok s by
        show (match it.static with
          | some s => Except.ok s
          | none =>
            (Except.error "TypeError: expected Tensor, got NoneType" :
              Except String (List Val))) = Except.ok s
        rw [h.1]]
      show (rest.map BatchElem.mapping).mapM staticOf >>= _ = _
      rw [ih ss h.2]
      rfl

theorem collate_fn_mapping_none (it0 : Item) (rest : List Item)
    (h : it0.static = none) :
    collate_fn ((it0 :: rest).map BatchElem.mapping) =
      Except.ok (Collated.batchDict
        { temporal := (it0 :: rest).map Item.temporal
          temporal_cols := it0.temporal_cols
          y_idx := it0.y_idx
          static := none
          static_cols := none }) := by
  have h1 := mapM_temporalOf (it0 :: rest)
  rw [List.map_cons] at h1
  show (if it0.static.isNone then _ else _) = _
  rw [h]
  show ((BatchElem.mapping it0 :: rest.map BatchElem.mapping).mapM temporalOf).bind
    _ = _
  rw [h1]
  show Except.ok (Collated.batchDict
    { temporal := collateStack ((it0 :: rest).map Item.temporal)
      temporal_cols := it0.temporal_cols
      y_idx := it0.y_idx
      static := none
      static_cols := none }) = _
  rw [collateStack_eq _ (by simp)]

theorem collate_fn_mapping_some (it0 : Item) (rest : List Item)
    (sts : List (List Val))
    (h : (it0 :: rest).map Item.static = sts.map some) :
    collate_fn ((it0 :: rest).map BatchElem.mapping) =
      Except.ok (Collated.batchDict
        { temporal := (it0 :: rest).map Item.temporal
          temporal_cols := it0.temporal_cols
          y_idx := it0.y_idx
          static := some sts
          static_cols := it0.static_cols }) := by
  have hs0 : it0.static.isNone = false := by
    cases sts with
    | nil => simp at h
    | cons s ss =>
      simp only [List.map_cons, List.cons.injEq] at h
      rw [h.1]
      rfl
  have h1 := mapM_temporalOf (it0 :: rest)
  rw [List.map_cons] at h1
  have h2 := mapM_staticOf (it0 :: rest) sts h
  rw [List.map_cons] at h2
  have hsts_ne : sts ≠ [] := by
    intro hnil
    subst hnil
    simp at h
  show (if it0.static.isNone then _ else _) = _
  rw [hs0]
  show ((BatchElem.mapping it0 :: rest.map BatchElem.mapping).mapM staticOf).bind
    _ = _
  rw [h2]
  show ((BatchElem.mapping it0 :: rest.map BatchElem.mapping).mapM temporalOf).bind
    _ = _
  rw [h1]
  show Except.ok (Collated.batchDict
    { temporal := collateStack ((it0 :: rest).map Item.temporal)
      temporal_cols := it0.temporal_cols
      y_idx := it0.y_idx
      static := some (collateStack sts)
      static_cols := it0.static_cols }) = _
  rw [collateStack_eq _ (by simp), collateStack_eq _ hsts_ne]

/-! ### Frame effects and concrete instances -/

namespace TimeSeriesDataset

/-- The state of `self` after `TimeSeriesDataset.append` runs: the method
body binds only local variables (`len_temporal`, `new_temporal`, ...) and
assigns no attribute of `self`, so its effect on `self` is the identity. -/
def selfAfterAppend (self : TimeSeriesDataset)
    (_futr_dataset : TimeSeriesDataset) : TimeSeriesDataset := self

/-- The state of the input dataset after `TimeSeriesDataset.trim_dataset`
runs: the static method assigns no attribute of `dataset` (and on the error
path it raises before building anything), so its effect on the input is the
identity. -/
def selfAfterTrim (dataset : TimeSeriesDataset)
    (_left_trim _right_trim : Nat) : TimeSeriesDataset := dataset

end TimeSeriesDataset

/-- A concrete two-series dataset (series lengths 1 and 2). -/
def wds1 : TimeSeriesDataset :=
  TimeSeriesDataset.make [[Val.num 1], [Val.num 2], [Val.num 3]] ["y"]
    [0, 1, 3] 0 none none

/-- A concrete two-series dataset (series lengths 1 and 1). -/
def wds2 : TimeSeriesDataset :=
  TimeSeriesDataset.make [[Val.num 4], [Val.num 5]] ["y"] [0, 1, 2] 0 none none

/-- A concrete one-series dataset with static features. -/
def wds3 : TimeSeriesDataset :=
  TimeSeriesDataset.make [[Val.num 1], [Val.num 2]] ["y"] [0, 2] 0
    (some [[Val.num 7]]) (some ["s0"])

/-- A concrete dataframe whose `available_mask` column has a zero in the late
part: the input on which the round-trip claim fails. -/
def c5df : DFrame :=
  { cols := ["y", "available_mask"]
    rows := [{ id := 0, time := 0, vals := [Val.num 1, Val.num 1] },
             { id := 0, time := 1, vals := [Val.num 2, Val.num 0] }] }

/-- The early rows of `c5df` (cutoff 0). -/
def c5left : DFrame :=
  { cols := c5df.cols, rows := c5df.rows.filter (fun x => x.time ≤ 0) }

/-- The late rows of `c5df` (cutoff 0). -/
def c5right : DFrame :=
  { cols := c5df.cols, rows := c5df.rows.filter (fun x => ¬ x.time ≤ 0) }

/-- A concrete mask-free dataframe with two series split by cutoff 0. -/
def c5wdf : DFrame :=
  { cols := ["y"]
    rows := [{ id := 0, time := 0, vals := [Val.num 1] },
             { id := 1, time := 0, vals := [Val.num 3] },
             { id := 0, time := 1, vals := [Val.num 2] },
             { id := 1, time := 1, vals := [Val.num 4] }] }


/-- Checklist constructor for the invariant on concrete datasets (the series
conjunct is definitional). -/
theorem indptrInvariant_of_checks (ds : TimeSeriesDataset)
    (h1 : ds.indptr.length = ds.nGroups + 1) (h2 : ds.indptr.head? = some 0)
    (h3 : List.Pairwise (· ≤ ·) ds.indptr)
    (h4 : ds.indptr.getLast? = some ds.temporal.length) : IndptrInvariant ds :=
  ⟨h1, h2, List.chain'_iff_pairwise.mpr h3, h4, fun _ _ => rfl⟩

/-! ### Claims -/

/-- C1: for every dataset satisfying the indptr invariant whose series are
all non-empty and every `idx < n_groups`, `__getitem__(idx)` returns an item
whose `temporal` entry has the fixed shape
`(len(temporal_cols), max_size)`; writing `L` for the length of series
`idx`, row `c` of that matrix is `max_size - L` zeros (the left padding)
followed by column `c` of the series' rows (the transposed series). -/
theorem spec_c1 (ds : TimeSeriesDataset) (idx : Nat)
    (hinv : IndptrInvariant ds)
    (_hne : ∀ i < ds.nGroups, 0 < (ds.series i).length)
    (hidx : idx < ds.nGroups) :
    ((ds.getitem idx).temporal).length = ds.temporal_cols.length ∧
    (∀ row ∈ (ds.getitem idx).temporal, row.length = ds.max_size) ∧
    ∀ c < ds.temporal_cols.length,
      ((ds.getitem idx).temporal).getD c [] =
        List.replicate (ds.max_size - (ds.series idx).length) (Val.num 0) ++
          (ds.series idx).map (fun row => row.getD c (Val.num 0)) :=
  getitem_temporal ds idx hinv hidx

/-- Witness for C1 at a concrete dataset: group 0 has length 1, padded to
the maximal length 2. -/
theorem spec_c1_witness :
    IndptrInvariant wds1 ∧ (∀ i < wds1.nGroups, 0 < (wds1.series i).length) ∧
    0 < wds1.nGroups ∧
    (((wds1.getitem 0).temporal).length = wds1.temporal_cols.length ∧
      (∀ row ∈ (wds1.getitem 0).temporal, row.length = wds1.max_size) ∧
      ∀ c < wds1.temporal_cols.length,
        ((wds1.getitem 0).temporal).getD c [] =
          List.replicate (wds1.max_size - (wds1.series 0).length) (Val.num 0) ++
            (wds1.series 0).map (fun row => row.getD c (Val.num 0))) :=
  ⟨indptrInvariant_of_checks wds1 (by decide) (by decide) (by decide)
      (by decide), by decide, by decide,
    spec_c1 wds1 0 (indptrInvariant_of_checks wds1 (by decide) (by decide)
      (by decide) (by decide)) (by decide) (by decide)⟩

/-- C2: appending datasets with equally long index pointers succeeds; the
result's indptr is the element-wise sum and its `i`-th series is the
concatenation of the two `i`-th series; with different indptr sizes,
`append` raises `ValueError`. -/
theorem spec_c2 :
    (∀ self futr : TimeSeriesDataset,
      IndptrInvariant self → IndptrInvariant futr →
      self.indptr.length = futr.indptr.length →
      ∃ d', self.append futr = Except.ok d' ∧
        d'.indptr = List.zipWith (· + ·) self.indptr futr.indptr ∧
        ∀ i < self.nGroups, d'.series i = self.series i ++ futr.series i) ∧
    (∀ self futr : TimeSeriesDataset,
      self.indptr.length ≠ futr.indptr.length →
      self.append futr = Except.error
        "Cannot append futr_dataset with different number of groups.") := by
  constructor
  · intro self futr h1 h2 hlen
    have hnf1 := invariant_nf h1
    have hnf2 := invariant_nf h2
    have hclen : (chunksOf self).length = (chunksOf futr).length := by
      simp only [chunksOf, List.length_map, List.length_range]
      unfold TimeSeriesDataset.nGroups
      omega
    have hcombl : (List.zipWith (· ++ ·) (chunksOf self)
        (chunksOf futr)).length = (chunksOf self).length := by
      rw [List.length_zipWith, hclen, Nat.min_self]
    refine ⟨_, append_nf self futr _ _ hnf1 hnf2 hclen, ?_, ?_⟩
    · show cumsum ((List.zipWith (· ++ ·) (chunksOf self)
          (chunksOf futr)).map List.length) = _
      rw [map_length_zipWith_append, ← cumsum_zipAdd _ _ (by simp [hclen]),
        ← hnf1.2, ← hnf2.2]
    · intro i hi
      have hi' : i < (chunksOf self).length := by
        simp only [chunksOf, List.length_map, List.length_range]
        exact hi
      have hnfr : NF (TimeSeriesDataset.make
          ((List.zipWith (· ++ ·) (chunksOf self) (chunksOf futr)).flatten)
          self.temporal_cols
          (cumsum ((List.zipWith (· ++ ·) (chunksOf self)
            (chunksOf futr)).map List.length))
          self.y_idx self.static self.static_cols)
          (List.zipWith (· ++ ·) (chunksOf self) (chunksOf futr)) := ⟨rfl, rfl⟩
      rw [hnfr.series_eq i (by omega),
        getD_zipWith_append _ _ i hi' (by omega),
        ← hnf1.series_eq i hi', ← hnf2.series_eq i (hclen ▸ hi')]
  · intro self futr h
    exact append_err self futr h

/-- Witness for C2 at two concrete datasets with two groups each. -/
theorem spec_c2_witness :
    IndptrInvariant wds1 ∧ IndptrInvariant wds2 ∧
    wds1.indptr.length = wds2.indptr.length ∧
    (∃ d', wds1.append wds2 = Except.ok d' ∧
      d'.indptr = List.zipWith (· + ·) wds1.indptr wds2.indptr ∧
      ∀ i < wds1.nGroups, d'.series i = wds1.series i ++ wds2.series i) :=
  ⟨indptrInvariant_of_checks wds1 (by decide) (by decide) (by decide)
      (by decide),
   indptrInvariant_of_checks wds2 (by decide) (by decide) (by decide)
      (by decide), by decide,
    spec_c2.1 wds1 wds2
      (indptrInvariant_of_checks wds1 (by decide) (by decide) (by decide)
        (by decide))
      (indptrInvariant_of_checks wds2 (by decide) (by decide) (by decide)
        (by decide)) (by decide)⟩

theorem append_ok_fields (ds futr d' : TimeSeriesDataset)
    (h : ds.append futr = Except.ok d') :
    ds.indptr.length = futr.indptr.length ∧
    d'.indptr = List.zipWith (· + ·) ds.indptr futr.indptr ∧
    d'.temporal_cols = ds.temporal_cols ∧ d'.y_idx = ds.y_idx ∧
    d'.static = ds.static ∧ d'.static_cols = ds.static_cols ∧
    d'.updated = false := by
  by_cases hg : ds.indptr.length ≠ futr.indptr.length
  · rw [append_err ds futr hg] at h
    exact absurd h (by simp)
  · have heq : ds.indptr.length = futr.indptr.length := Decidable.not_not.mp hg
    simp only [TimeSeriesDataset.append, if_neg hg] at h
    rw [Except.ok.injEq] at h
    subst h
    exact ⟨heq, rfl, rfl, rfl, rfl, rfl, rfl⟩

theorem trim_ok_fields (ds d' : TimeSeriesDataset) (l r : Nat)
    (h : ds.trim_dataset l r = Except.ok d') :
    ¬ ds.min_size ≤ l + r ∧ d'.updated = false := by
  by_cases hg : ds.min_size ≤ l + r
  · simp only [TimeSeriesDataset.trim_dataset, if_pos hg] at h
    exact absurd h (by simp)
  · simp only [TimeSeriesDataset.trim_dataset, if_neg hg] at h
    rw [Except.ok.injEq] at h
    subst h
    exact ⟨hg, rfl⟩

theorem chunksOf_ne_nil (ds : TimeSeriesDataset) (hn : 1 ≤ ds.nGroups) :
    chunksOf ds ≠ [] := by
  unfold chunksOf
  intro hnil
  have := congrArg List.length hnil
  simp at this
  omega

theorem trim_all_lt (ds : TimeSeriesDataset) (l r : Nat)
    (hinv : IndptrInvariant ds) (hn : 1 ≤ ds.nGroups)
    (htrim : l + r < ds.min_size) :
    ∀ ch ∈ chunksOf ds, l + r < ch.length := by
  have hnf := invariant_nf hinv
  have hne : ds.sizes ≠ [] := by
    rw [hnf.sizes_eq]
    simpa using chunksOf_ne_nil ds hn
  have hall := (min_size_iff ds hne (l + r)).mp htrim
  intro ch hch
  apply hall
  rw [hnf.sizes_eq]
  exact List.mem_map_of_mem List.length hch

/-- C3: trimming with `left_trim + right_trim < min_size` succeeds; the
result keeps the number of groups, series `i` becomes the input series `i`
without its first `left_trim` and last `right_trim` rows, and the total row
count shrinks by `(left_trim + right_trim) * n_groups`. -/
theorem spec_c3 (ds : TimeSeriesDataset) (l r : Nat)
    (hinv : IndptrInvariant ds) (hn : 1 ≤ ds.nGroups)
    (htrim : l + r < ds.min_size) :
    ∃ d', ds.trim_dataset l r = Except.ok d' ∧
      d'.nGroups = ds.nGroups ∧
      (∀ i < ds.nGroups,
        d'.series i = ((ds.series i).drop l).take ((ds.series i).length - l - r)) ∧
      d'.temporal.length = ds.temporal.length - (l + r) * ds.nGroups := by
  have hnf := invariant_nf hinv
  have hne := chunksOf_ne_nil ds hn
  have hall := trim_all_lt ds l r hinv hn htrim
  have hcn : ds.nGroups = (chunksOf ds).length := by
    unfold chunksOf
    simp
  have htl : (trimChunks (chunksOf ds) l r).length = (chunksOf ds).length := by
    unfold trimChunks
    simp
  refine ⟨_, trim_nf ds (chunksOf ds) l r hnf hne hall, ?_, ?_, ?_⟩
  · show (cumsum ((trimChunks (chunksOf ds) l r).map List.length)).length - 1 = _
    rw [cumsum_length]
    simp only [List.length_map, htl]
    omega
  · intro i hi
    have hi' : i < (chunksOf ds).length := by omega
    have hnfr : NF (TimeSeriesDataset.make
        ((trimChunks (chunksOf ds) l r).flatten) ds.temporal_cols
        (cumsum ((trimChunks (chunksOf ds) l r).map List.length)) ds.y_idx
        ds.static ds.static_cols) (trimChunks (chunksOf ds) l r) := ⟨rfl, rfl⟩
    rw [hnfr.series_eq i (by omega)]
    unfold trimChunks
    rw [getD_map_of_lt _ _ i hi' [] [], ← hnf.series_eq i hi']
  · show ((trimChunks (chunksOf ds) l r).flatten).length = _
    rw [List.length_flatten]
    have hsum := sum_trim_lengths l r (chunksOf ds) hall
    have hT : ds.temporal.length = ((chunksOf ds).map List.length).sum := by
      rw [hnf.1, List.length_flatten]
    rw [hT, hcn]
    omega

/-- Witness for C3 at a concrete dataset with min_size 1 and trims 0, 0. -/
theorem spec_c3_witness :
    IndptrInvariant wds1 ∧ 1 ≤ wds1.nGroups ∧ 0 + 0 < wds1.min_size ∧
    (∃ d', wds1.trim_dataset 0 0 = Except.ok d' ∧
      d'.nGroups = wds1.nGroups ∧
      (∀ i < wds1.nGroups,
        d'.series i = ((wds1.series i).drop 0).take ((wds1.series i).length - 0 - 0)) ∧
      d'.temporal.length = wds1.temporal.length - (0 + 0) * wds1.nGroups) :=
  ⟨indptrInvariant_of_checks wds1 (by decide) (by decide) (by decide) (by decide),
   by decide, by decide,
   spec_c3 wds1 0 0
     (indptrInvariant_of_checks wds1 (by decide) (by decide) (by decide)
       (by decide)) (by decide) (by decide)⟩

/-- C4: every dataset produced by `from_df`, a successful `append`, or a
successful `trim_dataset` satisfies the indptr invariant. -/
theorem spec_c4 :
    (∀ (df : DFrame) (target_col : String),
      IndptrInvariant (TimeSeriesDataset.from_df df target_col)) ∧
    (∀ self futr d' : TimeSeriesDataset, IndptrInvariant self →
      IndptrInvariant futr → self.append futr = Except.ok d' →
      IndptrInvariant d') ∧
    (∀ (ds d' : TimeSeriesDataset) (l r : Nat), IndptrInvariant ds →
      ds.trim_dataset l r = Except.ok d' → IndptrInvariant d') := by
  refine ⟨?_, ?_, ?_⟩
  · intro df target_col
    exact (from_df_nf df target_col).invariant
  · intro self futr d' h1 h2 hok
    have hlen : self.indptr.length = futr.indptr.length :=
      (append_ok_fields self futr d' hok).1
    have hclen : (chunksOf self).length = (chunksOf futr).length := by
      simp only [chunksOf, List.length_map, List.length_range]
      unfold TimeSeriesDataset.nGroups
      omega
    have happ := append_nf self futr _ _ (invariant_nf h1) (invariant_nf h2) hclen
    rw [happ, Except.ok.injEq] at hok
    subst hok
    exact NF.invariant ⟨rfl, rfl⟩
  · intro ds d' l r hinv hok
    have hmin : ¬ ds.min_size ≤ l + r := (trim_ok_fields ds d' l r hok).1
    have htrim : l + r < ds.min_size := Nat.not_le.mp hmin
    have hn : 1 ≤ ds.nGroups := by
      by_contra hn0
      have hz : ds.nGroups = 0 := by omega
      have hsz : ds.sizes = [] := by
        have hlen := (invariant_nf hinv).sizes_eq
        have : (chunksOf ds).length = 0 := by
          unfold chunksOf
          simp [hz]
        rw [hlen]
        exact List.eq_nil_of_length_eq_zero (by simpa using this)
      have : ds.min_size = 0 := by
        unfold TimeSeriesDataset.min_size
        rw [hsz]
      omega
    have htr := trim_nf ds (chunksOf ds) l r (invariant_nf hinv)
      (chunksOf_ne_nil ds hn) (trim_all_lt ds l r hinv hn htrim)
    rw [htr, Except.ok.injEq] at hok
    subst hok
    exact NF.invariant ⟨rfl, rfl⟩

/-- Witness for C4: the invariant transfers through a concrete append. -/
theorem spec_c4_witness :
    IndptrInvariant wds1 ∧ IndptrInvariant wds2 ∧
    wds1.append wds2 = Except.ok (TimeSeriesDataset.make
      [[Val.num 1], [Val.num 4], [Val.num 2], [Val.num 3], [Val.num 5]] ["y"]
      [0, 2, 5] 0 none none) ∧
    IndptrInvariant (TimeSeriesDataset.make
      [[Val.num 1], [Val.num 4], [Val.num 2], [Val.num 3], [Val.num 5]] ["y"]
      [0, 2, 5] 0 none none) :=
  ⟨indptrInvariant_of_checks wds1 (by decide) (by decide) (by decide) (by decide),
   indptrInvariant_of_checks wds2 (by decide) (by decide) (by decide) (by decide),
   by rfl,
   spec_c4.2.1 wds1 wds2 _
     (indptrInvariant_of_checks wds1 (by decide) (by decide) (by decide)
       (by decide))
     (indptrInvariant_of_checks wds2 (by decide) (by decide) (by decide)
       (by decide))
     (by rfl)⟩

/-- C5 (amended): for every dataframe without an `available_mask` column
(whose first value column is the target and whose columns are distinct and
fully populated), split by a time cutoff `t` into earlier and later rows
such that every series appears in both parts,
`update_dataset(from_df(df1), df2)` produces a dataset whose `temporal`,
`indptr` and `max_size` equal those of `from_df` on the full frame.  The
restriction to mask-free frames is forced by the counterexample below:
`align` overwrites the future rows' `available_mask` values with 1.0. -/
theorem spec_c5 (df : DFrame) (t : Int) (target_col : String)
    (rest : List String)
    (hcols : df.cols = target_col :: rest)
    (hnodup : df.cols.Nodup)
    (hmask : "available_mask" ∉ df.cols)
    (hw : ∀ rr ∈ df.rows, rr.vals.length = df.cols.length)
    (hids1 : ((df.rows.filter (fun x => x.time ≤ t)).map Row.id).toFinset =
      (df.rows.map Row.id).toFinset)
    (hids2 : ((df.rows.filter (fun x => ¬ x.time ≤ t)).map Row.id).toFinset =
      (df.rows.map Row.id).toFinset) :
    ∃ d' : TimeSeriesDataset,
      TimeSeriesDataset.update_dataset
        (TimeSeriesDataset.from_df
          { cols := df.cols, rows := df.rows.filter (fun x => x.time ≤ t) }
          target_col)
        { cols := df.cols, rows := df.rows.filter (fun x => ¬ x.time ≤ t) }
        target_col = Except.ok d' ∧
      d'.temporal = (TimeSeriesDataset.from_df df target_col).temporal ∧
      d'.indptr = (TimeSeriesDataset.from_df df target_col).indptr ∧
      d'.max_size = (TimeSeriesDataset.from_df df target_col).max_size :=
  update_roundtrip df t target_col rest hcols hnodup hmask hw hids1 hids2

/-- Counterexample to C5 as stated: for the dataframe `c5df`, which carries
an `available_mask` column with a zero in its late row, the cutoff-0 split
satisfies the claim's hypotheses (every series appears in both parts), yet
the dataset produced by `update_dataset` differs in `temporal` from the one
built directly by `from_df` on the full frame (`align` forces the future
mask values to 1). -/
theorem spec_c5_counterexample :
    ((c5left.rows.map Row.id).toFinset = (c5df.rows.map Row.id).toFinset) ∧
    ((c5right.rows.map Row.id).toFinset = (c5df.rows.map Row.id).toFinset) ∧
    (TimeSeriesDataset.update_dataset (TimeSeriesDataset.from_df c5left "y")
        c5right "y").toOption.map TimeSeriesDataset.temporal ≠
      some (TimeSeriesDataset.from_df c5df "y").temporal := by
  decide

/-- Witness for the amended C5 at a concrete two-series mask-free frame. -/
theorem spec_c5_witness :
    c5wdf.cols = "y" :: [] ∧ c5wdf.cols.Nodup ∧
    "available_mask" ∉ c5wdf.cols ∧
    (∀ rr ∈ c5wdf.rows, rr.vals.length = c5wdf.cols.length) ∧
    ((c5wdf.rows.filter (fun x => x.time ≤ 0)).map Row.id).toFinset =
      (c5wdf.rows.map Row.id).toFinset ∧
    ((c5wdf.rows.filter (fun x => ¬ x.time ≤ 0)).map Row.id).toFinset =
      (c5wdf.rows.map Row.id).toFinset ∧
    (∃ d' : TimeSeriesDataset,
      TimeSeriesDataset.update_dataset
        (TimeSeriesDataset.from_df
          { cols := c5wdf.cols, rows := c5wdf.rows.filter (fun x => x.time ≤ 0) }
          "y")
        { cols := c5wdf.cols, rows := c5wdf.rows.filter (fun x => ¬ x.time ≤ 0) }
        "y" = Except.ok d' ∧
      d'.temporal = (TimeSeriesDataset.from_df c5wdf "y").temporal ∧
      d'.indptr = (TimeSeriesDataset.from_df c5wdf "y").indptr ∧
      d'.max_size = (TimeSeriesDataset.from_df c5wdf "y").max_size) :=
  ⟨by decide, by decide, by decide, by decide, by decide, by decide,
   spec_c5 c5wdf 0 "y" [] (by decide) (by decide) (by decide) (by decide)
     (by decide) (by decide)⟩

/-- C6: `trim_dataset` raises if and only if
`min_size ≤ left_trim + right_trim`; otherwise it returns a dataset.  On the
error path the raise is the method's first statement: no dataset is
constructed and the input (a pure value here, see `selfAfterTrim`) is
unchanged. -/
theorem spec_c6 (ds : TimeSeriesDataset) (l r : Nat) :
    ((∃ e, ds.trim_dataset l r = Except.error e) ↔ ds.min_size ≤ l + r) ∧
    (¬ ds.min_size ≤ l + r → ∃ d', ds.trim_dataset l r = Except.ok d') ∧
    TimeSeriesDataset.selfAfterTrim ds l r = ds := by
  refine ⟨?_, ?_, rfl⟩
  · by_cases hg : ds.min_size ≤ l + r
    · simp only [TimeSeriesDataset.trim_dataset, if_pos hg]
      exact ⟨fun _ => hg, fun _ => ⟨_, rfl⟩⟩
    · simp only [TimeSeriesDataset.trim_dataset, if_neg hg]
      constructor
      · rintro ⟨e, he⟩
        exact absurd he (by simp)
      · intro h
        exact absurd h hg
  · intro hg
    simp only [TimeSeriesDataset.trim_dataset, if_neg hg]
    exact ⟨_, rfl⟩

/-- Witness for C6: the error/success dichotomy at concrete trims. -/
theorem spec_c6_witness :
    ((∃ e, wds1.trim_dataset 2 0 = Except.error e) ↔ wds1.min_size ≤ 2 + 0) ∧
    (¬ wds1.min_size ≤ 0 + 0) ∧
    (∃ d', wds1.trim_dataset 0 0 = Except.ok d') :=
  ⟨(spec_c6 wds1 2 0).1, by decide, (spec_c6 wds1 0 0).2.1 (by decide)⟩


/-- C7: collating a non-empty batch of items produced by a dataset yields a
dict whose `temporal` stacks the items' temporal tensors along a new first
dimension, whose `temporal_cols` and `y_idx` come from the first item, and
which carries the `static`/`static_cols` keys exactly when the first item's
`static` is not `None`; a batch whose first element is neither a tensor nor
a mapping raises `TypeError`. -/
theorem spec_c7 :
    (∀ (ds : TimeSeriesDataset) (idxs : List Nat), idxs ≠ [] →
      (∀ i ∈ idxs, i < ds.nGroups) →
      ∃ cb : CollatedBatch,
        collate_fn (idxs.map (fun i => BatchElem.mapping (ds.getitem i))) =
          Except.ok (Collated.batchDict cb) ∧
        cb.temporal = idxs.map (fun i => (ds.getitem i).temporal) ∧
        cb.temporal_cols = ds.temporal_cols ∧
        cb.y_idx = ds.y_idx ∧
        (cb.static.isSome ↔ ds.static.isSome) ∧
        (ds.static = none → cb.static = none ∧ cb.static_cols = none) ∧
        (∀ st, ds.static = some st →
          cb.static = some (idxs.map (fun i => st.getD i [])) ∧
          cb.static_cols = ds.static_cols)) ∧
    (∀ rest, collate_fn (BatchElem.other :: rest) =
      Except.error "TypeError: Unknown") := by
  constructor
  · intro ds idxs hne _
    cases idxs with
    | nil => exact absurd rfl hne
    | cons i0 irest =>
      have hbm : (i0 :: irest).map (fun i => BatchElem.mapping (ds.getitem i)) =
          ((i0 :: irest).map ds.getitem).map BatchElem.mapping :=
        (List.map_map _ _ _).symm
      have htem : ((i0 :: irest).map ds.getitem).map Item.temporal =
          (i0 :: irest).map (fun i => (ds.getitem i).temporal) :=
        List.map_map _ _ _
      cases hst : ds.static with
      | none =>
        have hit0 : (ds.getitem i0).static = none := by
          show (ds.static.map fun s => s.getD i0 []) = none
          rw [hst]
          rfl
        have hcol := collate_fn_mapping_none (ds.getitem i0)
          (irest.map ds.getitem) hit0
        refine ⟨{ temporal := ((i0 :: irest).map ds.getitem).map Item.temporal
                  temporal_cols := (ds.getitem i0).temporal_cols
                  y_idx := (ds.getitem i0).y_idx
                  static := none
                  static_cols := none },
          ?_, htem, rfl, rfl, by simp [hst], fun _ => ⟨rfl, rfl⟩, ?_⟩
        · rw [hbm]
          exact hcol
        · intro st hsome
          exact absurd hsome (by simp)
      | some st =>
        have hsts : ((i0 :: irest).map ds.getitem).map Item.static =
            ((i0 :: irest).map (fun i => st.getD i [])).map some := by
          rw [List.map_map, List.map_map]
          apply List.map_congr_left
          intro i _
          show (ds.static.map fun s => s.getD i []) = some (st.getD i [])
          rw [hst]
          rfl
        have hcol := collate_fn_mapping_some (ds.getitem i0)
          (irest.map ds.getitem) ((i0 :: irest).map (fun i => st.getD i []))
          hsts
        refine ⟨{ temporal := ((i0 :: irest).map ds.getitem).map Item.temporal
                  temporal_cols := (ds.getitem i0).temporal_cols
                  y_idx := (ds.getitem i0).y_idx
                  static := some ((i0 :: irest).map (fun i => st.getD i []))
                  static_cols := (ds.getitem i0).static_cols },
          ?_, htem, rfl, rfl, by simp [hst], ?_, ?_⟩
        · rw [hbm]
          exact hcol
        · intro hnone
          exact absurd hnone (by simp)
        · intro st' hsome
          rw [Option.some.injEq] at hsome
          subst hsome
          exact ⟨rfl, rfl⟩
  · intro rest
    rfl

/-- Witness for C7 on a one-item batch from a dataset with static data. -/
theorem spec_c7_witness :
    (([0] : List Nat) ≠ []) ∧ (∀ i ∈ ([0] : List Nat), i < wds3.nGroups) ∧
    (∃ cb : CollatedBatch,
      collate_fn (([0] : List Nat).map
        (fun i => BatchElem.mapping (wds3.getitem i))) =
        Except.ok (Collated.batchDict cb) ∧
      cb.temporal = ([0] : List Nat).map (fun i => (wds3.getitem i).temporal) ∧
      cb.temporal_cols = wds3.temporal_cols ∧
      cb.y_idx = wds3.y_idx ∧
      (cb.static.isSome ↔ wds3.static.isSome) ∧
      (wds3.static = none → cb.static = none ∧ cb.static_cols = none) ∧
      (∀ st, wds3.static = some st →
        cb.static = some (([0] : List Nat).map (fun i => st.getD i [])) ∧
        cb.static_cols = wds3.static_cols)) :=
  ⟨by decide, by decide, spec_c7.1 wds3 [0] (by decide) (by decide)⟩

/-- C8: `TimeSeriesDataset.__eq__` always returns `False`, even for
`a == a`: the guard requires the other object to have a `data` attribute,
but the class stores its array under `temporal` and defines no `data`
attribute. -/
theorem spec_c8 (a b : TimeSeriesDataset) :
    TimeSeriesDataset.dunder_eq a b = Except.ok false := rfl

/-- The result of appending `wds2` to `wds1`. -/
def wapp : TimeSeriesDataset :=
  TimeSeriesDataset.make
    [[Val.num 1], [Val.num 4], [Val.num 2], [Val.num 3], [Val.num 5]] ["y"]
    [0, 2, 5] 0 none none

/-- C9: `append` and `trim_dataset` do not mutate their input (their bodies
assign no attribute of it, see `selfAfterAppend`/`selfAfterTrim`); the
returned dataset is built by the constructor, whose `updated` flag is
(re)initialized to `False` regardless of the input's flag — so it is a new
object, the flag is never read or set by any operation, and `append` can be
applied any number of times. -/
theorem spec_c9 :
    (∀ ds futr : TimeSeriesDataset,
      TimeSeriesDataset.selfAfterAppend ds futr = ds) ∧
    (∀ (ds : TimeSeriesDataset) (l r : Nat),
      TimeSeriesDataset.selfAfterTrim ds l r = ds) ∧
    (∀ ds futr d' : TimeSeriesDataset, ds.append futr = Except.ok d' →
      d'.updated = false) ∧
    (∀ (ds d' : TimeSeriesDataset) (l r : Nat),
      ds.trim_dataset l r = Except.ok d' → d'.updated = false) ∧
    (∀ ds futr d' futr2 : TimeSeriesDataset, ds.append futr = Except.ok d' →
      futr2.indptr.length = ds.indptr.length →
      ∃ d2, d'.append futr2 = Except.ok d2) := by
  refine ⟨fun _ _ => rfl, fun _ _ _ => rfl, ?_, ?_, ?_⟩
  · intro ds futr d' hok
    exact (append_ok_fields ds futr d' hok).2.2.2.2.2.2
  · intro ds d' l r hok
    exact (trim_ok_fields ds d' l r hok).2
  · intro ds futr d' futr2 hok hlen2
    obtain ⟨hlen, hptr, -⟩ := append_ok_fields ds futr d' hok
    have heq : d'.indptr.length = futr2.indptr.length := by
      rw [hptr, List.length_zipWith]
      omega
    have hg : ¬ d'.indptr.length ≠ futr2.indptr.length := fun h => h heq
    cases hres : d'.append futr2 with
    | ok d2 => exact ⟨d2, rfl⟩
    | error e =>
      simp only [TimeSeriesDataset.append, if_neg hg] at hres
      exact absurd hres (by simp)

/-- Witness for C9: a concrete append, its fresh `updated` flag, and a
second append on top of it. -/
theorem spec_c9_witness :
    wds1.append wds2 = Except.ok wapp ∧ wapp.updated = false ∧
    wds2.indptr.length = wds1.indptr.length ∧
    (∃ d2, wapp.append wds2 = Except.ok d2) :=
  ⟨by rfl, spec_c9.2.2.1 wds1 wds2 wapp (by rfl), by decide,
   spec_c9.2.2.2.2 wds1 wds2 wapp wds2 (by rfl) (by decide)⟩

/-- C10: `_ensure_available_mask` leaves its input unchanged when
`available_mask` is already a column, otherwise appends a ones column and
the column name; it is idempotent, and every `from_df` dataset has an
`available_mask` column. -/
theorem spec_c10 :
    (∀ (data : List (List Val)) (tcols : List String),
      "available_mask" ∈ tcols →
      TimeSeriesDataset.ensure_available_mask data tcols = (data, tcols)) ∧
    (∀ (data : List (List Val)) (tcols : List String),
      "available_mask" ∉ tcols →
      TimeSeriesDataset.ensure_available_mask data tcols =
        (data.map (fun row => row ++ [Val.num 1]),
         tcols ++ ["available_mask"])) ∧
    (∀ (data : List (List Val)) (tcols : List String),
      TimeSeriesDataset.ensure_available_mask
        (TimeSeriesDataset.ensure_available_mask data tcols).1
        (TimeSeriesDataset.ensure_available_mask data tcols).2 =
      TimeSeriesDataset.ensure_available_mask data tcols) ∧
    (∀ (df : DFrame) (target_col : String),
      "available_mask" ∈
        (TimeSeriesDataset.from_df df target_col).temporal_cols) := by
  refine ⟨?_, ?_, ?_, ?_⟩
  · intro data tcols h
    simp only [TimeSeriesDataset.ensure_available_mask, if_pos h]
  · intro data tcols h
    simp only [TimeSeriesDataset.ensure_available_mask, if_neg h]
  · intro data tcols
    by_cases h : "available_mask" ∈ tcols
    · simp only [TimeSeriesDataset.ensure_available_mask, if_pos h]
    · have h2 : "available_mask" ∈ tcols ++ ["available_mask"] := by simp
      simp only [TimeSeriesDataset.ensure_available_mask, if_neg h, if_pos h2]
  · intro df target_col
    by_cases h : "available_mask" ∈
        target_col :: df.cols.filter (fun c => c ≠ target_col)
    · show "available_mask" ∈ (TimeSeriesDataset.ensure_available_mask _ _).2
      simp only [TimeSeriesDataset.ensure_available_mask, if_pos h]
      exact h
    · show "available_mask" ∈ (TimeSeriesDataset.ensure_available_mask _ _).2
      simp only [TimeSeriesDataset.ensure_available_mask, if_neg h]
      simp

/-- Witness for C10: both branches of `_ensure_available_mask` at concrete
inputs. -/
theorem spec_c10_witness :
    ("available_mask" ∈ (["y", "available_mask"] : List String)) ∧
    TimeSeriesDataset.ensure_available_mask [[Val.num 1]]
      ["y", "available_mask"] = ([[Val.num 1]], ["y", "available_mask"]) ∧
    ("available_mask" ∉ (["y"] : List String)) ∧
    TimeSeriesDataset.ensure_available_mask [[Val.num 1]] ["y"] =
      ([[Val.num 1, Val.num 1]], ["y", "available_mask"]) :=
  ⟨by decide,
   spec_c10.1 [[Val.num 1]] ["y", "available_mask"] (by decide),
   by decide,
   spec_c10.2.1 [[Val.num 1]] ["y"] (by decide)⟩
